import Mathlib

/-!
Verification development for the gordf RDF/XML loader.

The development shallowly embeds the two source files of the repository:
the character-level XML reader (tokenizer and tree builder) and the
concurrent triple extractor.  The byte stream is modelled as a `List Char`
threaded explicitly through every reader function; Go's named-return error
variables are modelled as an `Option Err` component of each result, and the
places where the Go source overwrites a previously assigned error (the
multi-assignment statements) are mirrored faithfully.  Loops of the source
are modelled either by structural recursion on the stream or, for loops
whose body consumes a statically unknown amount of input, by a fuel
parameter; fuel exhaustion is reported as its own error value and never
occurs on the concrete inputs evaluated below.

Parts of the repository that the claims depend on but whose source is not
available (the scanner primitives, the `uri` collaborator package, the
`Node`/`BlankNodeGetter` declarations, and the goroutine/WaitGroup
machinery) are modelled from the specification; each such definition
carries a doc comment starting with `Modelled from the spec:`.
Concurrency is modelled by running every scheduled extraction unit to
completion at its scheduling point; the WaitGroup is an integer counter
(`Add` increments, `Done` decrements) and "the final wait can complete" is
expressed as the counter being zero once all scheduled units have run.
-/

namespace Gordf

/-- Error values surfaced by the reader and the parser.  The Go source
distinguishes `io.EOF` from message errors, compares against it, and the
parser wraps a few formatted errors; fuel exhaustion is an artefact of the
embedding and is never produced on the concrete inputs used below. -/
inductive Err where
  | eof
  | fuel
  | msg (s : String)
  | undefinedSchema (s : String)
  | badSchemaURI
  deriving DecidableEq, Repr

/-- Result of `readColonPair`; the Go source stores both halves of an
`a:b` word in an untyped pair, here two strings. -/
structure ColonPair where
  first : String
  second : String
  deriving DecidableEq, Repr, Inhabited

structure Attribute where
  schemaName : String
  name : String
  value : String
  deriving DecidableEq, Repr, Inhabited

structure Tag where
  schemaName : String
  name : String
  attrs : List Attribute
  deriving DecidableEq, Repr, Inhabited

/-- The block tree produced by the tree builder: an opening tag together
with either a text value or child blocks. -/
inductive Block where
  | mk (openingTag : Tag) (value : String) (children : List Block)
  deriving Inhabited

def Block.openingTag : Block → Tag
  | .mk t _ _ => t

def Block.value : Block → String
  | .mk _ v _ => v

def Block.children : Block → List Block
  | .mk _ _ cs => cs

/-- Modelled from the spec: the single-quote character, written by code
point to satisfy the source layout conventions of this file. -/
def squote : Char := Char.ofNat 39

/-- Modelled from the spec: the double-quote character. -/
def dquote : Char := Char.ofNat 34

/-- Modelled from the spec: the zero value of Go's `rune`, returned by the
scanner primitives together with an end-of-stream error. -/
def zeroRune : Char := Char.ofNat 0

/-- Modelled from the spec: delimiter sets are 64-bit wide bitmasks; bit k
set means code point k is a delimiter.  The mask is reduced modulo 2^64 so
that, exactly as for Go's `uint64`, a shift `1 << c` by a code point of 64
or more contributes no bit. -/
def isDelim (mask : Nat) (c : Char) : Bool :=
  Nat.testBit (mask % 2 ^ 64) c.toNat

/-- Modelled from the spec: the single bit of a character's code point in a
64-bit delimiter mask (`1 << uint(c)` at `uint64`, hence zero for code
points of 64 or more). -/
def oneShl (c : Char) : Nat :=
  (1 <<< c.toNat) % 2 ^ 64

/-- Modelled from the spec: the reusable whitespace mask
{space, tab, carriage-return, line-feed}. -/
def WHITESPACE : Nat :=
  (1 <<< 32) ||| ((1 <<< 9) ||| ((1 <<< 13) ||| (1 <<< 10)))

/-- Modelled from the spec: scanner primitive reading one code point;
at end of stream it returns the zero rune with an end-of-stream error. -/
def readARuneG : List Char → Char × List Char × Option Err
  | [] => (zeroRune, [], some .eof)
  | c :: rest => (c, rest, none)

/-- Modelled from the spec: scanner primitive inspecting the next code
point without consuming it. -/
def peekARuneG : List Char → Char × Option Err
  | [] => (zeroRune, some .eof)
  | c :: _ => (c, none)

/-- Modelled from the spec: `readUntil` consumes and returns every
character up to (not including) the first delimiter, leaving the delimiter
unconsumed; if the stream is exhausted first it returns what was consumed
together with the end-of-stream error. -/
def readTillG (mask : Nat) : List Char → List Char × List Char × Option Err
  | [] => ([], [], some .eof)
  | c :: rest =>
    if isDelim mask c then ([], c :: rest, none)
    else
      let r := readTillG mask rest
      (c :: r.1, r.2.1, r.2.2)

/-- Modelled from the spec: skip whitespace, reporting how many characters
were skipped; peeking past the end of the stream yields the end-of-stream
error. -/
def ignoreWhiteSpaceG : List Char → Nat × List Char × Option Err
  | [] => (0, [], some .eof)
  | c :: rest =>
    if isDelim WHITESPACE c then
      let r := ignoreWhiteSpaceG rest
      (r.1 + 1, r.2.1, r.2.2)
    else (0, c :: rest, none)

/-- Modelled from the spec: read the next n bytes (the inputs exercised
here are ASCII, so bytes coincide with code points). -/
def readNBytesG : Nat → List Char → List Char × List Char × Option Err
  | 0, s => ([], s, none)
  | _ + 1, [] => ([], [], some .eof)
  | n + 1, c :: rest =>
    let r := readNBytesG n rest
    (c :: r.1, r.2.1, r.2.2)

/-- Modelled from the spec: inspect the next n bytes without consuming. -/
def peekNBytesG (n : Nat) (s : List Char) : List Char × Option Err :=
  ((readNBytesG n s).1, (readNBytesG n s).2.2)

/-- Scan a word for its first colon, as the loop in `readColonPair` does:
returns the split together with the colon-found flag. -/
def splitFirstColon : List Char → Option (List Char × List Char)
  | [] => none
  | c :: rest =>
    if c = ':' then some ([], rest)
    else
      match splitFirstColon rest with
      | none => none
      | some (a, b) => some (c :: a, b)

/-- `readColonPair` from the source: reads a word up to a delimiter, then
splits it at the first colon; a colon with nothing after it is an error. -/
def readColonPair (delim : Nat) (s : List Char) :
    ColonPair × Bool × List Char × Option Err :=
  match readTillG delim s with
  | (_, s', some e) => (default, false, s', some e)
  | (word, s', none) =>
    match splitFirstColon word with
    | some (a, b) =>
      if b.isEmpty then
        (⟨String.mk a, ""⟩, true, s', some (.msg "expected a word after colon"))
      else (⟨String.mk a, String.mk b⟩, true, s', none)
    | none => (⟨String.mk word, ""⟩, false, s', none)

/-- `readAttribute` from the source.  Note two faithful quirks of the Go
code: the error constructed when the character after the name is not `=`
is immediately overwritten by the next multi-assignment, and so is the
error constructed when the character after `=` is not a quote; only the
final closing-delimiter comparison can still fail on such inputs. -/
def readAttribute (s : List Char) : Attribute × List Char × Option Err :=
  match readColonPair (WHITESPACE ||| oneShl '=') s with
  | (_, _, s1, some e) => (default, s1, some e)
  | (pr, colonExists, s1, none) =>
    let attr : Attribute :=
      if colonExists then ⟨pr.first, pr.second, ""⟩ else ⟨"", pr.first, ""⟩
    match ignoreWhiteSpaceG s1 with
    | (_, s2, some e) => (attr, s2, some e)
    | (_, s2, none) =>
      match readARuneG s2 with
      | (_, s3, some e) => (attr, s3, some e)
      | (_, s3, none) =>
        -- the `expected an assignment sign` error is assigned here in the
        -- source and at once overwritten by the next assignment to err
        match readARuneG s3 with
        | (firstQuote, s4, _) =>
          -- likewise the `must be followed by an attribute enclosed within
          -- quotes` error is overwritten by the readTill assignment
          match readTillG (WHITESPACE ||| oneShl firstQuote) s4 with
          | (_, s5, some e) => (attr, s5, some e)
          | (word, s5, none) =>
            match readARuneG s5 with
            | (secondQuote, s6, _) =>
              if firstQuote ≠ secondQuote then
                (attr, s6, some (.msg "unexpected blank char. expected a closing quote"))
              else ({ attr with value := String.mk word }, s6, none)

/-- The attribute loop of `readOpeningTag`: read attributes until the next
non-blank character is `>` or `/`.  The fuel bounds the number of
attributes; each iteration mirrors one pass of the source loop. -/
def readAttrsF : Nat → List Char → List Attribute × List Char × Option Err
  | 0, s => ([], s, some .fuel)
  | fuel + 1, s =>
    match peekARuneG s with
    | (_, some e) => ([], s, some e)
    | (c, none) =>
      if c = '>' ∨ c = '/' then ([], s, none)
      else
        match readAttribute s with
        | (_, s1, some e) => ([], s1, some e)
        | (attr, s1, none) =>
          match ignoreWhiteSpaceG s1 with
          | (_, s2, some e) => ([attr], s2, some e)
          | (_, s2, none) =>
            let r := readAttrsF fuel s2
            (attr :: r.1, r.2.1, r.2.2)

/-- Continuation of `readOpeningTag` after the leading `<` (and a possibly
malformed, silently discarded prolog) has been consumed: the qualified tag
name, the optional attribute list and the `>` / `/>` terminator.
Two faithful quirks of the source: the branch overwriting the tag name
with the (provably empty) pre-`<` word is kept, and on the attribute path
a missing `>` after `/` produces an error that is assigned to a shadowed
variable and therefore lost. -/
def readOpeningTagBody (fuel : Nat) (isProlog : Bool) (s : List Char) :
    Tag × Bool × Bool × List Char × Option Err :=
  match readColonPair (oneShl '>' ||| (WHITESPACE ||| oneShl '/')) s with
  | (_, _, s1, some e) => (default, isProlog, false, s1, some e)
  | (pr, colonExist, s1, none) =>
    let tag : Tag := if colonExist then ⟨pr.first, pr.second, []⟩ else ⟨"", pr.first, []⟩
    let delim0 := (peekARuneG s1).1
    let s2 := if isDelim WHITESPACE delim0 then (ignoreWhiteSpaceG s1).2.1 else s1
    let delim := (peekARuneG s2).1
    if delim = '>' then (tag, isProlog, false, (readARuneG s2).2.1, none)
    else if delim = '/' then
      let s3 := (readARuneG s2).2.1
      match readARuneG s3 with
      | (_, s4, some e) => (tag, isProlog, true, s4, some e)
      | (nr, s4, none) =>
        if nr ≠ '>' then
          (tag, isProlog, true, s4, some (.msg "expected closing angular bracket after /"))
        else (tag, isProlog, true, s4, none)
    else
      match ignoreWhiteSpaceG s2 with
      | (_, s3, some e) => (tag, isProlog, false, s3, some e)
      | (_, s3, none) =>
        match peekARuneG s3 with
        | (_, some e) => (tag, isProlog, false, s3, some e)
        | (nr, none) =>
          if nr = '>' then
            -- the source overwrites the name with the word read before the
            -- opening bracket, which is empty on every reachable path
            ({ tag with name := "" }, isProlog, false, (readARuneG s3).2.1, none)
          else
            match readAttrsF fuel s3 with
            | (attrs, s4, some e) => ({ tag with attrs := attrs }, isProlog, false, s4, some e)
            | (attrs, s4, none) =>
              let tag := { tag with attrs := attrs }
              match readARuneG s4 with
              | (nr2, s5, _) =>
                if nr2 = '/' then
                  match readARuneG s5 with
                  | (_, s6, some e) => (tag, isProlog, true, s6, some e)
                  | (_, s6, none) =>
                    -- the missing-bracket error constructed here in the
                    -- source lands in a shadowed variable and is discarded
                    (tag, isProlog, true, s6, none)
                else (tag, isProlog, false, s5, none)

/-- `readOpeningTag` from the source: skip whitespace, require an
immediate `<`, detect a stray closing tag or a prolog, then parse the tag
proper.  A malformed prolog terminator produces an error that the source
discards before continuing into the tag body. -/
def readOpeningTag (fuel : Nat) (s : List Char) :
    Tag × Bool × Bool × List Char × Option Err :=
  match ignoreWhiteSpaceG s with
  | (_, s0, some e) => (default, false, false, s0, some e)
  | (_, s0, none) =>
    match readTillG (oneShl '<') s0 with
    | (word, s1, some _) =>
      -- the scanner only fails with the end-of-stream condition here
      if word.length > 0 then
        (default, false, false, s1, some (.msg "found stray characters at EOF"))
      else (default, false, false, s1, some .eof)
    | (word, s1, none) =>
      if word.length ≠ 0 then
        (default, false, false, s1, some (.msg "found extra chars before tag start"))
      else
        let s2 := (readARuneG s1).2.1
        let s3 := (ignoreWhiteSpaceG s2).2.1
        match peekARuneG s3 with
        | (_, some e) => (default, false, false, s3, some e)
        | (nextRune, none) =>
          if nextRune = '/' then
            (default, false, false, s3, some (.msg "unexpected closing tag"))
          else if nextRune = '?' then
            let s4 := (readARuneG s3).2.1
            match readTillG (oneShl '?') s4 with
            | (_, s5, some e) => (default, true, false, s5, some e)
            | (_, s5, none) =>
              let s6 := (readARuneG s5).2.1
              match ignoreWhiteSpaceG s6 with
              | (_, s7, some e) => (default, true, false, s7, some e)
              | (_, s7, none) =>
                match peekARuneG s7 with
                | (_, some e) => (default, true, false, s7, some e)
                | (c, none) =>
                  if c = '>' then (default, true, false, (readARuneG s7).2.1, none)
                  else
                    -- the malformed-prolog error is constructed in the
                    -- source and discarded; parsing continues
                    readOpeningTagBody fuel true s7
          else readOpeningTagBody fuel false s3

/-- `readClosingTag` from the source: the literal `</`, a qualified name,
optional whitespace and a final `>`. -/
def readClosingTag (s : List Char) : Tag × List Char × Option Err :=
  match readNBytesG 2 s with
  | (_, s1, some e) => (default, s1, some e)
  | (two, s1, none) =>
    if two ≠ ['<', '/'] then (default, s1, some (.msg "expected a closing tag"))
    else
      match readColonPair (oneShl '>' ||| WHITESPACE) s1 with
      | (_, _, s2, some e) => (default, s2, some e)
      | (pr, colonExists, s2, none) =>
        let tag : Tag := if colonExists then ⟨pr.first, pr.second, []⟩ else ⟨"", pr.first, []⟩
        let s3 := (ignoreWhiteSpaceG s2).2.1
        match readARuneG s3 with
        | (_, s4, some e) => (tag, s4, some e)
        | (c, s4, none) =>
          if c ≠ '>' then (tag, s4, some (.msg "expected a > char"))
          else (tag, s4, none)

/-- Epilogue of `readBlock`: read the closing tag and require it to match
the opening tag on both name and namespace prefix. -/
def finishBlock (openingTag : Tag) (value : String) (children : List Block)
    (s : List Char) : Block × List Char × Option Err :=
  let block := Block.mk openingTag value children
  match readClosingTag s with
  | (_, s1, some e) => (block, s1, some e)
  | (closingTag, s1, none) =>
    if openingTag.name ≠ closingTag.name ∨ openingTag.schemaName ≠ closingTag.schemaName then
      (block, s1, some (.msg "opening and closing tags doesnt match"))
    else (block, s1, none)

mutual

/-- `readBlock` from the source: an opening tag (retrying past prologs),
then either a self-closed block, a text value, or recursively read
children, and finally the matching closing tag. -/
def readBlockF : Nat → List Char → Block × List Char × Option Err
  | 0, s => (default, s, some .fuel)
  | fuel + 1, s =>
    match readOpeningTag fuel s with
    | (openingTag, isProlog, blockComplete, s1, err) =>
      if isProlog then readBlockF fuel s1
      else
        match err with
        | some e => (default, s1, some e)
        | none =>
          if blockComplete then (.mk openingTag "" [], s1, none)
          else
            let s2 := (ignoreWhiteSpaceG s1).2.1
            match peekARuneG s2 with
            | (_, some e) => (.mk openingTag "" [], s2, some e)
            | (c, none) =>
              if c ≠ '<' then
                match readTillG (oneShl '<') s2 with
                | (_, s3, some e) => (.mk openingTag "" [], s3, some e)
                | (word, s3, none) => finishBlock openingTag (String.mk word) [] s3
              else
                match peekNBytesG 2 s2 with
                | (_, some e) => (.mk openingTag "" [], s2, some e)
                | (_, none) =>
                  match readChildrenF fuel s2 with
                  | (cs, s3, some e) => (.mk openingTag "" cs, s3, some e)
                  | (cs, s3, none) => finishBlock openingTag "" cs s3

/-- The child loop of `readBlock`: while the next two characters are not
`</`, read a child block and skip trailing whitespace. -/
def readChildrenF : Nat → List Char → List Block × List Char × Option Err
  | 0, s => ([], s, some .fuel)
  | fuel + 1, s =>
    match peekNBytesG 2 s with
    | (_, some e) => ([], s, some e)
    | (two, none) =>
      if two = ['<', '/'] then ([], s, none)
      else
        match readBlockF fuel s with
        | (_, s1, some e) => ([], s1, some e)
        | (child, s1, none) =>
          let s2 := (ignoreWhiteSpaceG s1).2.1
          let r := readChildrenF fuel s2
          (child :: r.1, r.2.1, r.2.2)

end

/-- `Read` from the source: read the root block (the fuel is generous for
every input evaluated in this development; all general theorems quantify
over the fuel). -/
def Read (s : List Char) : Block × List Char × Option Err :=
  readBlockF (s.length + 4) s

/-- The fixed RDF namespace IRI from the source. -/
def RDFNS : String := "http://www.w3.org/1999/02/22-rdf-syntax-ns#"

/-- Modelled from the spec: the `uri` collaborator's URI value type, a
wrapper around its string form. -/
structure URIRef where
  uri : String
  deriving DecidableEq, Repr, Inhabited

/-- Modelled from the spec: URI construction from a string, failing on
malformed input; malformedness is unspecified by the spec and modelled as
the empty string (no claim depends on the predicate's extension). -/
def NewURIRef (s : String) : URIRef × Option Err :=
  if s = "" then (⟨""⟩, some .badSchemaURI) else (⟨s⟩, none)

/-- Modelled from the spec: append a relative fragment to a base URI,
producing a new URI. -/
def AddFragment (base : URIRef) (fragment : String) : URIRef :=
  ⟨base.uri ++ fragment⟩

/-- Modelled from the spec: the node kind discriminator of the parser
package's type declarations (not included in the sources). -/
inductive NodeType where
  | IRI
  | BLANK
  | LITERAL
  deriving DecidableEq, Repr

/-- Modelled from the spec: a node is a tagged union over IRI, blank and
literal, with value equality as identity. -/
structure Node where
  ntype : NodeType
  id : String
  deriving DecidableEq, Repr

instance : Inhabited Node := ⟨⟨.IRI, ""⟩⟩

/-- Association-list model of a Go map: first binding of a key wins on
lookup, and an update overwrites the existing binding or appends. -/
def lookupKV {α : Type} : List (String × α) → String → Option α
  | [], _ => none
  | p :: rest, k => if p.1 = k then some p.2 else lookupKV rest k

def updKV {α : Type} : List (String × α) → String → α → List (String × α)
  | [], k, v => [(k, v)]
  | p :: rest, k, v => if p.1 = k then (k, v) :: rest else p :: updKV rest k v

def containsKey {α : Type} (l : List (String × α)) (k : String) : Bool :=
  (lookupKV l k).isSome

def countKey {α : Type} (l : List (String × α)) (k : String) : Nat :=
  l.countP (fun p => decide (p.1 = k))

/-- Decimal digits of a natural number, most significant first; the
provably injective numbering used for freshly minted blank nodes. -/
def decDigitsAux : Nat → Nat → List Char
  | 0, _ => []
  | f + 1, n =>
    if n < 10 then [Nat.digitChar n]
    else decDigitsAux f (n / 10) ++ [Nat.digitChar (n % 10)]

/-- Decimal digits of a natural number, most significant first; the
provably injective numbering used for freshly minted blank nodes.  The
fuel of the auxiliary recursion always suffices. -/
def decDigits (n : Nat) : List Char :=
  decDigitsAux (n + 1) n

/-- Decimal rendering of an integer, as Go's formatting of an `int`. -/
def intRepr (i : Int) : String :=
  if i < 0 then "-" ++ String.mk (decDigits i.natAbs) else String.mk (decDigits i.toNat)

/-- Modelled from the spec: the blank-node minter of the parser package
(declared in a source file not included): a monotonic counter, initialised
to -1 by `New`, plus a cache from caller-supplied `rdf:nodeID` values to
the previously minted blank node. -/
structure BlankNodeGetter where
  lastID : Int
  cache : List (String × Node)
  deriving DecidableEq, Repr

/-- Modelled from the spec: mint a fresh, uniquely numbered blank node. -/
def BlankNodeGetter.Get (g : BlankNodeGetter) : Node × BlankNodeGetter :=
  (⟨.BLANK, "N" ++ intRepr (g.lastID + 1)⟩, { g with lastID := g.lastID + 1 })

/-- Modelled from the spec: return the blank node previously minted for
this id, or mint and cache a new one. -/
def BlankNodeGetter.GetFromId (g : BlankNodeGetter) (id : String) :
    Node × BlankNodeGetter :=
  match lookupKV g.cache id with
  | some n => (n, g)
  | none =>
    let n : Node := ⟨.BLANK, "N" ++ id⟩
    (n, { g with cache := updKV g.cache id n })

structure Triple where
  subject : Node
  predicate : Node
  object : Node
  deriving DecidableEq, Repr

/-- Modelled from the spec: the rendering of one node inside the canonical
triple string (the source formats a `*Node` with `%v`). -/
def nodeStr (n : Node) : String :=
  "&\x7b" ++ (match n.ntype with
    | .IRI => "IRI"
    | .BLANK => "BLANK"
    | .LITERAL => "LITERAL") ++ " " ++ n.id ++ "\x7d"

/-- `Hash` from the source: the canonical string form
of a triple, used as its deduplication key. -/
def Triple.Hash (t : Triple) : String :=
  "\x7b" ++ nodeStr t.subject ++ "; " ++ nodeStr t.predicate ++ "; " ++
    nodeStr t.object ++ "\x7d"

/-- The parser state: the source's `Parser` struct, with the WaitGroup
modelled as the integer counter `wg` (Add increments, Done decrements) and
the shared error slot `*errp` modelled as `perr`.  The write lock needs no
model because scheduled units run to completion here. -/
structure PState where
  Triples : List (String × Triple)
  schemaDefinition : List (String × URIRef)
  blankNodeGetter : BlankNodeGetter
  rdfNS : URIRef
  wg : Int
  perr : Option Err
  deriving DecidableEq, Repr

/-- `New` from the source: empty triple store, an empty-prefix entry in
the namespace table, a blank-node counter at -1, and the RDF namespace. -/
def New : PState :=
  { Triples := []
    schemaDefinition := [("", ⟨""⟩)]
    blankNodeGetter := ⟨-1, []⟩
    rdfNS := (NewURIRef RDFNS).1
    wg := 0
    perr := none }

/-- The attribute loop of `parseHeaderBlock`: each attribute whose
`SchemaName` is exactly `xmlns` contributes its name and parsed value. -/
def parseHeaderAttrs : List Attribute → List (String × URIRef) →
    List (String × URIRef) × Option Err
  | [], m => (m, none)
  | a :: rest, m =>
    if a.schemaName = "xmlns" then
      match NewURIRef a.value with
      | (_, some _) => (m, some .badSchemaURI)
      | (u, none) => parseHeaderAttrs rest (updKV m a.name u)
    else parseHeaderAttrs rest m

/-- `parseHeaderBlock` from the source: collect the schema definitions of
the root block into a fresh namespace table. -/
def parseHeaderBlock (rootBlock : Block) : List (String × URIRef) × Option Err :=
  parseHeaderAttrs rootBlock.openingTag.attrs []

/-- `uriFromPair` from the source: resolve a `schema:name` pair against
the namespace table, failing on an undefined schema name. -/
def uriFromPair (st : PState) (schemaName name : String) : URIRef × Option Err :=
  match lookupKV st.schemaDefinition schemaName with
  | none => (⟨""⟩, some (.undefinedSchema schemaName))
  | some baseURI => (AddFragment baseURI name, none)

/-- `appendTriple` from the source: insert the triple under its canonical
string key (the lock around the insertion needs no model here). -/
def appendTriple (st : PState) (t : Triple) : PState :=
  { st with Triples := updKV st.Triples t.Hash t }

/-- The scan loop of `getRDFAttributeIndex`: resolve each attribute and
compare with the target under the RDF namespace; a resolution failure
breaks out of the loop with the index still -1. -/
def rdfAttrIdxLoop (st : PState) (attrName : String) :
    List Attribute → Nat → Int
  | [], _ => -1
  | a :: rest, i =>
    match uriFromPair st a.schemaName a.name with
    | (_, some _) => -1
    | (attrUri, none) =>
      if attrUri = AddFragment st.rdfNS attrName then (i : Int)
      else rdfAttrIdxLoop st attrName rest (i + 1)

/-- `getRDFAttributeIndex` from the source.  The error assigned inside the
loop shadows the named return value, so the function always reports a nil
error alongside the index. -/
def getRDFAttributeIndex (st : PState) (tag : Tag) (attrName : String) :
    Int × Option Err :=
  (rdfAttrIdxLoop st attrName tag.attrs 0, none)

/-- The value of the attribute at a (found, hence valid) index. -/
def attrValueAt (tag : Tag) (i : Int) : String :=
  (tag.attrs.getD i.toNat default).value

/-- `nodeFromTag` from the source: `rdf:about` yields an IRI node, else
`rdf:nodeID` yields the cached-or-minted named blank node, else a fresh
blank node. -/
def nodeFromTag (st : PState) (tag : Tag) : Node × PState × Option Err :=
  match getRDFAttributeIndex st tag "about" with
  | (_, some e) => (default, st, some e)
  | (index, none) =>
    if index = -1 then
      match getRDFAttributeIndex st tag "nodeID" with
      | (_, some e) => (default, st, some e)
      | (rdfNodeIDIndex, none) =>
        if rdfNodeIDIndex = -1 then
          let r := st.blankNodeGetter.Get
          (r.1, { st with blankNodeGetter := r.2 }, none)
        else
          let r := st.blankNodeGetter.GetFromId (attrValueAt tag rdfNodeIDIndex)
          (r.1, { st with blankNodeGetter := r.2 }, none)
    else (⟨.IRI, attrValueAt tag index⟩, st, none)

mutual

/-- `parseBlock` from the source, one scheduled extraction unit run to
completion: process every predicate child, and decrement the join counter
(`wg.Done`) only when the loop finishes without an error — every early
`return` in the source skips the decrement.  The fuel makes the recursion
structural; exhaustion reports its own error (and, like every error path,
skips the decrement) and never occurs on the inputs evaluated below. -/
def parseBlock : Nat → PState → Block → Node → PState
  | 0, st, _, _ => { st with perr := some .fuel }
  | fuel + 1, st, blk, node =>
    let st1 := goPreds fuel st blk.openingTag node blk.children
    if st1.perr.isSome then st1 else { st1 with wg := st1.wg - 1 }

/-- The predicate loop of `parseBlock`: derive the predicate node, resolve
the subject tag to its type URI, emit the `rdf:type` triple, handle the
childless-predicate literal case, then walk the object children.  Each
error write to the shared slot is checked immediately, mirroring the
source's `*errp = newErr; if *errp != nil return` pattern. -/
def goPreds : Nat → PState → Tag → Node → List Block → PState
  | 0, st, _, _, _ => { st with perr := some .fuel }
  | fuel + 1, st, subjTag, node, preds =>
    match preds with
    | [] => st
    | pb :: rest =>
      match nodeFromTag st pb.openingTag with
      | (predicateNode, st1, e1) =>
        let st1 := { st1 with perr := e1 }
        if st1.perr.isSome then st1
        else
          match uriFromPair st1 subjTag.schemaName subjTag.name with
          | (openingTagUri, e2) =>
            let st2 := { st1 with perr := e2 }
            if st2.perr.isSome then st2
            else
              let st3 := appendTriple st2
                ⟨node, ⟨.IRI, (AddFragment st2.rdfNS "type").uri⟩, ⟨.IRI, openingTagUri.uri⟩⟩
              if st3.perr.isSome then st3
              else
                let st4 :=
                  if pb.children.isEmpty then
                    match getRDFAttributeIndex st3 pb.openingTag "resource" with
                    | (resIdx, e3) =>
                      let st4 := { st3 with perr := e3 }
                      if st4.perr.isSome then st4
                      else
                        let objectString :=
                          if resIdx ≠ -1 then attrValueAt pb.openingTag resIdx else pb.value
                        appendTriple st4 ⟨node, predicateNode, ⟨.LITERAL, objectString⟩⟩
                  else st3
                if st4.perr.isSome then st4
                else
                  let st5 := goObjs fuel st4 node predicateNode pb.children
                  if st5.perr.isSome then st5
                  else goPreds fuel st5 subjTag node rest

/-- The object loop of `parseBlock`: derive each object node, emit the
connecting triple, increment the join counter and schedule the recursive
unit (run to completion here), checking the shared error slot after it. -/
def goObjs : Nat → PState → Node → Node → List Block → PState
  | 0, st, _, _, _ => { st with perr := some .fuel }
  | fuel + 1, st, node, predicateNode, objs =>
    match objs with
    | [] => st
    | ob :: rest =>
      match nodeFromTag st ob.openingTag with
      | (objectNode, st1, e1) =>
        let st1 := { st1 with perr := e1 }
        if st1.perr.isSome then st1
        else
          let st2 := appendTriple st1 ⟨node, predicateNode, objectNode⟩
          let st3 := { st2 with wg := st2.wg + 1 }
          let st4 := parseBlock fuel st3 ob objectNode
          if st4.perr.isSome then st4
          else goObjs fuel st4 node predicateNode rest

end

/-- The scheduling loop of `Parse`: for every direct child of the root,
increment the join counter, derive the subject node and run the scheduled
unit; the per-iteration error variable is read right after scheduling. -/
def parseChildren (fuel : Nat) (st : PState) : List Block → PState × Option Err
  | [] => (st, none)
  | child :: rest =>
    let st1 := { st with wg := st.wg + 1 }
    match nodeFromTag st1 child.openingTag with
    | (_, st2, some e) => (st2, some e)
    | (childNode, st2, none) =>
      let st3 := parseBlock fuel st2 child childNode
      if st3.perr.isSome then (st3, st3.perr)
      else parseChildren fuel st3 rest

/-- `Parse` from the source, on an in-memory character stream: build the
tree, replace the namespace table with the root's schema definitions, then
schedule one extraction unit per root child.  The final `wg.Wait` is
modelled by the returned state's counter: the wait can complete only if
`wg` is zero once every scheduled unit has run. -/
def ParseChars (st : PState) (input : List Char) : PState × Option Err :=
  match Read input with
  | (_, _, some e) => (st, some e)
  | (rootBlock, _, none) =>
    match parseHeaderBlock rootBlock with
    | (_, some e) => (st, some e)
    | (sd, none) =>
      let st1 := { st with schemaDefinition := sd }
      parseChildren (input.length + 4) st1 rootBlock.children

/-- Every tag in the block tree that carries a namespace prefix has a
non-empty local name (checked on opening tags; a successful parse forces
each closing tag to coincide with its opening tag on both fields). -/
def blockNamesOk : Block → Bool
  | .mk t _ cs => (t.schemaName == "" || t.name != "") &&
      cs.attach.all fun c => blockNamesOk c.1
decreasing_by
  have := List.sizeOf_lt_of_mem c.2
  simp at *
  omega

/-- Value of a most-significant-first decimal digit list, the inverse used
to prove the blank-node numbering injective. -/
def digitsVal (l : List Char) : Nat :=
  l.foldl (fun a c => a * 10 + (c.toNat - 48)) 0

/-- A document whose second-level tag `c:d` has an undefined namespace
prefix and a child: the scheduled extraction unit for `c:d` fails when
resolving `c` and returns without reaching `wg.Done`. -/
def docLeak : List Char :=
  "<a:b xmlns:a=\"u\"><c:d><c:e></c:e></c:d></a:b>".data

/-- A well-formed document declaring a prefixed namespace and a default
(unprefixed) namespace on its root. -/
def docNoDefault : List Char :=
  "<r:R xmlns:r=\"u\" xmlns=\"v\"></r:R>".data

/-- A parser state whose namespace table binds only `rdf`, as after
parsing a root that declares `xmlns:rdf`. -/
def stRdfOnly : PState :=
  { New with schemaDefinition := [("rdf", ⟨RDFNS⟩)] }

/-- A tag whose first attribute has an undeclared prefix and whose second
attribute is `rdf:about`. -/
def tagScanStop : Tag :=
  ⟨"q", "t", [⟨"foo", "x", "1"⟩, ⟨"rdf", "about", "u"⟩]⟩

/-- A parser state binding the prefixes `a` and `rdf`, used to exercise
the extraction loop on concrete blocks. -/
def stAB : PState :=
  { New with schemaDefinition := [("a", ⟨"http://a/"⟩), ("rdf", ⟨RDFNS⟩)] }

/-- A childless predicate block carrying an `rdf:resource` attribute. -/
def pbResource : Block :=
  .mk ⟨"a", "p", [⟨"rdf", "resource", "http://obj/"⟩]⟩ "" []

/-- A block whose opening tag has the undeclared prefix `c` and which has
one child, so its extraction unit fails after the join counter was already
incremented for it. -/
def blkBadPrefix : Block :=
  .mk ⟨"c", "d", []⟩ "" [.mk ⟨"c", "e", []⟩ "" []]

/-- Tags carrying `rdf:nodeID` and plain tags, for the node-identity
evaluations. -/
def tagNodeId1 : Tag := ⟨"a", "s", [⟨"rdf", "nodeID", "n1"⟩]⟩

def tagNodeId2 : Tag := ⟨"a", "t", [⟨"rdf", "nodeID", "n1"⟩]⟩

def tagPlain1 : Tag := ⟨"a", "s", []⟩

def tagPlain2 : Tag := ⟨"a", "t", []⟩

def tagAbout : Tag := ⟨"a", "s", [⟨"rdf", "about", "http://subj/"⟩]⟩



/-- Field-based form of `uriFromPair`, used to normalize applications at
different parser states with equal namespace tables. -/
def uriFromPairF (sd : List (String × URIRef)) (schemaName name : String) :
    URIRef × Option Err :=
  match lookupKV sd schemaName with
  | none => (⟨""⟩, some (.undefinedSchema schemaName))
  | some baseURI => (AddFragment baseURI name, none)

/-- Field-based form of the attribute-scan loop. -/
def rdfAttrIdxLoopF (sd : List (String × URIRef)) (rdfns : URIRef) (an : String) :
    List Attribute → Nat → Int
  | [], _ => -1
  | a :: rest, i =>
    match uriFromPairF sd a.schemaName a.name with
    | (_, some _) => -1
    | (attrUri, none) =>
      if attrUri = AddFragment rdfns an then (i : Int)
      else rdfAttrIdxLoopF sd rdfns an rest (i + 1)


/-- The parser-state evolution produced by deriving nodes for a sequence
of intervening tags: during extraction only `nodeFromTag` touches the
blank-node getter (triple insertion, counter updates and the shared error
slot leave it and the read-only namespace table alone), so an arbitrary
run of intervening derivations is a fold of `nodeFromTag`. -/
def evalTags (st : PState) : List Tag → PState
  | [] => st
  | t :: ts => evalTags (nodeFromTag st t).2.1 ts

/-! ### Field-form equations -/

theorem uriFromPair_eq (st : PState) (schemaName name : String) :
    uriFromPair st schemaName name = uriFromPairF st.schemaDefinition schemaName name := rfl

theorem rdfAttrIdxLoop_eq (st : PState) (an : String) (attrs : List Attribute) (i : Nat) :
    rdfAttrIdxLoop st an attrs i = rdfAttrIdxLoopF st.schemaDefinition st.rdfNS an attrs i := by
  induction attrs generalizing i with
  | nil => rfl
  | cons a rest ih =>
    simp only [rdfAttrIdxLoop, rdfAttrIdxLoopF, ← uriFromPair_eq]
    rcases uriFromPair st a.schemaName a.name with ⟨u, e⟩
    cases e with
    | some e0 => rfl
    | none =>
      by_cases h : u = AddFragment st.rdfNS an <;> simp [h, ih]

/-! ### Association-map lemmas -/

theorem lookupKV_updKV {α : Type} (l : List (String × α)) (k k' : String) (v : α) :
    lookupKV (updKV l k v) k' = if k = k' then some v else lookupKV l k' := by
  induction l with
  | nil => by_cases h : k = k' <;> simp [updKV, lookupKV, h]
  | cons p rest ih =>
    obtain ⟨pk, pv⟩ := p
    by_cases hp : pk = k <;> by_cases hk : k = k' <;> by_cases hpk : pk = k' <;>
      simp_all [updKV, lookupKV]

theorem updKV_idem {α : Type} (l : List (String × α)) (k : String) (v : α) :
    updKV (updKV l k v) k v = updKV l k v := by
  induction l with
  | nil => simp [updKV]
  | cons p rest ih =>
    obtain ⟨pk, pv⟩ := p
    by_cases hp : pk = k <;> simp_all [updKV]

theorem containsKey_updKV {α : Type} (l : List (String × α)) (k k' : String) (v : α) :
    containsKey (updKV l k v) k' = (decide (k = k') || containsKey l k') := by
  by_cases h : k = k' <;> simp [containsKey, lookupKV_updKV, h]

theorem countKey_nil {α : Type} (k : String) : countKey ([] : List (String × α)) k = 0 := rfl

theorem countKey_pos_iff_containsKey {α : Type} (l : List (String × α)) (k : String) :
    0 < countKey l k ↔ containsKey l k = true := by
  induction l with
  | nil => simp [countKey, containsKey, lookupKV]
  | cons p rest ih =>
    obtain ⟨pk, pv⟩ := p
    by_cases hp : pk = k <;> simp_all [countKey, containsKey, lookupKV, List.countP_cons]

theorem countKey_updKV_self {α : Type} (l : List (String × α)) (k : String) (v : α) :
    countKey (updKV l k v) k =
      if containsKey l k then countKey l k else countKey l k + 1 := by
  induction l with
  | nil => simp [updKV, countKey, containsKey, lookupKV, List.countP_cons]
  | cons p rest ih =>
    obtain ⟨pk, pv⟩ := p
    by_cases hp : pk = k <;> simp_all [updKV, countKey, containsKey, lookupKV, List.countP_cons]

theorem countKey_updKV_ne {α : Type} (l : List (String × α)) (k k' : String) (v : α)
    (h : k ≠ k') : countKey (updKV l k v) k' = countKey l k' := by
  induction l with
  | nil => simp [updKV, countKey, List.countP_cons, h]
  | cons p rest ih =>
    obtain ⟨pk, pv⟩ := p
    by_cases hp : pk = k <;> simp_all [updKV, countKey, List.countP_cons]

theorem countKey_updKV_le_one {α : Type} (l : List (String × α)) (k0 : String) (v : α)
    (h : ∀ k, countKey l k ≤ 1) (k : String) : countKey (updKV l k0 v) k ≤ 1 := by
  by_cases hk : k0 = k
  · subst hk
    rw [countKey_updKV_self]
    split
    · exact h k0
    · rename_i hc
      have : ¬ 0 < countKey l k0 := by
        rw [countKey_pos_iff_containsKey]; simp_all
      omega
  · rw [countKey_updKV_ne _ _ _ _ hk]; exact h k

theorem countKey_foldlUpd_le_one (ts : List Triple) (m : List (String × Triple))
    (h : ∀ k, countKey m k ≤ 1) (k : String) :
    countKey (ts.foldl (fun m tr => updKV m tr.Hash tr) m) k ≤ 1 := by
  induction ts generalizing m with
  | nil => exact h k
  | cons t rest ih =>
    exact ih _ (countKey_updKV_le_one m t.Hash t h)

theorem countKey_foldlUpd_pos (ts : List Triple) (m : List (String × Triple))
    (k : String) (h : 0 < countKey m k) :
    0 < countKey (ts.foldl (fun m tr => updKV m tr.Hash tr) m) k := by
  induction ts generalizing m with
  | nil => exact h
  | cons t rest ih =>
    refine ih _ ?_
    by_cases hk : t.Hash = k
    · subst hk
      rw [countKey_updKV_self]
      split
      · exact h
      · omega
    · rw [countKey_updKV_ne _ _ _ _ hk]; exact h

theorem triples_foldl (ts : List Triple) (st : PState) :
    (ts.foldl appendTriple st).Triples =
      ts.foldl (fun m tr => updKV m tr.Hash tr) st.Triples := by
  induction ts generalizing st with
  | nil => rfl
  | cons t rest ih => simpa [appendTriple] using ih (appendTriple st t)

/-! ### Claim theorems (first group) -/

/-- **C9**: inserting the same logical triple (identical subject,
predicate and object values, hence identical canonical key) any number of
times leaves exactly one entry for it: `appendTriple` is idempotent for
identical keys, and any insertion sequence containing the triple yields a
store with exactly one entry under its canonical key, so a later insert
with an identical key is observationally identical to the first. -/
theorem c9_appendTriple_set_semantics :
    (∀ (st : PState) (t : Triple),
        appendTriple (appendTriple st t) t = appendTriple st t) ∧
    (∀ (t : Triple) (ts1 ts2 : List Triple),
        countKey ((ts1 ++ t :: ts2).foldl appendTriple New).Triples t.Hash = 1) := by
  constructor
  · intro st t
    simp [appendTriple, updKV_idem]
  · intro t ts1 ts2
    rw [triples_foldl, List.foldl_append, List.foldl_cons]
    have hbase : ∀ k, countKey (ts1.foldl (fun m tr => updKV m tr.Hash tr) New.Triples) k ≤ 1 := by
      intro k
      refine countKey_foldlUpd_le_one ts1 _ (fun k' => ?_) k
      simp [New, countKey]
    have hle : ∀ k, countKey (updKV (ts1.foldl (fun m tr => updKV m tr.Hash tr) New.Triples)
        t.Hash t) k ≤ 1 := countKey_updKV_le_one _ _ _ hbase
    have hpos : 0 < countKey (updKV (ts1.foldl (fun m tr => updKV m tr.Hash tr) New.Triples)
        t.Hash t) t.Hash := by
      rw [countKey_updKV_self]
      split
      · rename_i hc
        rw [countKey_pos_iff_containsKey]; exact hc
      · omega
    have h1 := countKey_foldlUpd_le_one ts2 _ hle t.Hash
    have h2 := countKey_foldlUpd_pos ts2 _ t.Hash hpos
    omega

/-- **C1** (code bug): the spec requires `Parse` to return a non-nil error
whenever the document is malformed anywhere, including inside a scheduled
extraction unit.  On `docLeak` the unit for `c:d` fails resolving the
undeclared prefix `c` and returns without reaching `wg.Done`, so the join
counter stays at 1 after every scheduled unit has finished: the real
`Parse` blocks forever in `wg.Wait` whenever its racy per-iteration read
of the shared error slot misses the write, instead of returning the
error. -/
theorem c1_scheduled_unit_error_leaks_counter :
    (ParseChars New docLeak).2 = some (.undefinedSchema "c") ∧
    (ParseChars New docLeak).1.wg = 1 := by decide

/-- **C2 counterexample**: parsing a root that declares `xmlns:r` and a
default `xmlns` succeeds, yet afterwards the namespace table has no entry
for the empty prefix: `Parse` replaces the table seeded by `New` with the
output of `parseHeaderBlock`, which keys entries by the `Name` of
attributes whose `SchemaName` is exactly `xmlns` and ignores a default
(unprefixed) `xmlns` declaration entirely. -/
theorem c2_empty_prefix_entry_lost :
    (ParseChars New docNoDefault).2 = none ∧
    containsKey (ParseChars New docNoDefault).1.schemaDefinition "" = false := by decide

/-- **C6 counterexample**: in a state binding only `rdf`, the tag whose
first attribute has the undeclared prefix `foo` and whose second attribute
is `rdf:about` (which resolves to the target) yields index -1: the scan
breaks at the first unresolvable attribute instead of skipping it. -/
theorem c6_scan_stops_at_unresolvable :
    (uriFromPair stRdfOnly "rdf" "about").1 = AddFragment stRdfOnly.rdfNS "about" ∧
    (uriFromPair stRdfOnly "rdf" "about").2 = none ∧
    tagScanStop.attrs.get? 1 = some ⟨"rdf", "about", "u"⟩ ∧
    getRDFAttributeIndex stRdfOnly tagScanStop "about" = (-1, none) := by decide

/-- **C7** (code bug): `readAttribute` is required to fail when the
character after the name is not `=` and when the character after `=` is
not a quote; the source constructs both errors but immediately overwrites
them through later multi-assignments to the same variable, so both inputs
below parse successfully (with an empty value, since the stray character
doubles as the value delimiter). -/
theorem c7_lost_grammar_errors :
    readAttribute ("a !00".data) = (⟨"", "a", ""⟩, [], none) ∧
    readAttribute ("a =00".data) = (⟨"", "a", ""⟩, [], none) := by decide

/-- **C8 counterexample**: the document `<></>` parses successfully and
its root tag has an empty name (and an empty prefix), refuting the
invariant that every `Tag.Name` is non-empty after a successful parse. -/
theorem c8_empty_name_parse_succeeds :
    (Read ("<></>".data)).2.2 = none ∧
    (Read ("<></>".data)).1.openingTag.name = "" ∧
    (Read ("<></>".data)).1.openingTag.schemaName = "" := by decide


/-! ### Header-table characterization (C2) -/

theorem parseHeaderAttrs_keys (attrs : List Attribute) (m : List (String × URIRef))
    (k : String) (h : containsKey (parseHeaderAttrs attrs m).1 k = true) :
    containsKey m k = true ∨ ∃ a ∈ attrs, a.schemaName = "xmlns" ∧ a.name = k := by
  induction attrs generalizing m with
  | nil => exact .inl h
  | cons a rest ih =>
    simp only [parseHeaderAttrs] at h
    by_cases hx : a.schemaName = "xmlns"
    · rw [if_pos hx] at h
      rcases hNU : NewURIRef a.value with ⟨u, e⟩
      rw [hNU] at h
      cases e with
      | some e0 => exact .inl h
      | none =>
        rcases ih _ h with h' | ⟨b, hb, hbs, hbn⟩
        · rw [containsKey_updKV] at h'
          by_cases han : a.name = k
          · exact .inr ⟨a, by simp, hx, han⟩
          · simp [han] at h'
            exact .inl h'
        · exact .inr ⟨b, by simp [hb], hbs, hbn⟩
    · rw [if_neg hx] at h
      rcases ih _ h with h' | ⟨b, hb, hbs, hbn⟩
      · exact .inl h'
      · exact .inr ⟨b, by simp [hb], hbs, hbn⟩

/-- **C2 amended**: `New` does seed the namespace table with an
empty-prefix entry, but `Parse` replaces that table with the output of
`parseHeaderBlock`, whose every key is the `Name` of some root attribute
with `SchemaName` exactly `xmlns`; a default namespace declaration (bare
`xmlns`) has an empty `SchemaName` and is not recorded at all, so after
`Parse` the empty-prefix entry is gone (see the counterexample). -/
theorem c2_amended_header_keys :
    containsKey New.schemaDefinition "" = true ∧
    ∀ (root : Block) (k : String),
      containsKey (parseHeaderBlock root).1 k = true →
      ∃ a ∈ root.openingTag.attrs, a.schemaName = "xmlns" ∧ a.name = k := by
  constructor
  · decide
  · intro root k h
    rcases parseHeaderAttrs_keys root.openingTag.attrs [] k h with h' | h'
    · simp [containsKey, lookupKV] at h'
    · exact h'

/-- Witness for the amended C2 statement at a concrete root block whose
only schema attribute is `xmlns:r`. -/
theorem c2_amended_header_keys_witness :
    containsKey New.schemaDefinition "" = true ∧
    ∃ a ∈ (Block.mk ⟨"r", "R", [⟨"xmlns", "r", "u"⟩]⟩ "" []).openingTag.attrs,
      a.schemaName = "xmlns" ∧ a.name = "r" :=
  ⟨c2_amended_header_keys.1,
   c2_amended_header_keys.2 (Block.mk ⟨"r", "R", [⟨"xmlns", "r", "u"⟩]⟩ "" []) "r" (by decide)⟩

/-! ### Attribute-scan characterization (C6) -/

theorem rdfAttrIdxLoop_neg (st : PState) (an : String) (attrs : List Attribute)
    (i0 : Nat) (h : rdfAttrIdxLoop st an attrs i0 = -1) :
    ∀ (k : Nat) (a : Attribute), attrs.get? k = some a →
      (∀ (j : Nat) (b : Attribute), j ≤ k → attrs.get? j = some b →
        (uriFromPair st b.schemaName b.name).2 = none) →
      (uriFromPair st a.schemaName a.name).1 ≠ AddFragment st.rdfNS an := by
  induction attrs generalizing i0 with
  | nil =>
    intro k a hka
    simp at hka
  | cons a0 rest ih =>
    intro k a hka hres
    simp only [rdfAttrIdxLoop] at h
    rcases hU : uriFromPair st a0.schemaName a0.name with ⟨u, e⟩
    rw [hU] at h
    cases e with
    | some e0 =>
      have h0 := hres 0 a0 (Nat.zero_le k) rfl
      rw [hU] at h0
      simp at h0
    | none =>
      by_cases heq : u = AddFragment st.rdfNS an
      · simp [heq] at h
      · simp [heq] at h
        cases k with
        | zero =>
          have ha : a0 = a := by simpa using hka
          subst ha
          rw [hU]
          simpa using heq
        | succ n =>
          exact ih (i0 + 1) h n a (by simpa using hka)
            (fun j b hj hjb => hres (j + 1) b (by omega) (by simpa using hjb))

theorem rdfAttrIdxLoop_pos (st : PState) (an : String) (attrs : List Attribute) :
    ∀ (i0 : Nat) (i : Int), rdfAttrIdxLoop st an attrs i0 = i → i ≠ -1 →
    ∃ k : Nat, i = ((i0 + k : Nat) : Int) ∧
      (∃ a, attrs.get? k = some a ∧
        uriFromPair st a.schemaName a.name = (AddFragment st.rdfNS an, none)) ∧
      ∀ (j : Nat) (b : Attribute), j < k → attrs.get? j = some b →
        (uriFromPair st b.schemaName b.name).2 = none ∧
        (uriFromPair st b.schemaName b.name).1 ≠ AddFragment st.rdfNS an := by
  induction attrs with
  | nil =>
    intro i0 i h hne
    simp [rdfAttrIdxLoop] at h
    omega
  | cons a0 rest ih =>
    intro i0 i h hne
    simp only [rdfAttrIdxLoop] at h
    rcases hU : uriFromPair st a0.schemaName a0.name with ⟨u, e⟩
    rw [hU] at h
    cases e with
    | some e0 =>
      simp at h
      omega
    | none =>
      by_cases heq : u = AddFragment st.rdfNS an
      · simp [heq] at h
        refine ⟨0, by omega, ⟨a0, rfl, ?_⟩, by omega⟩
        rw [hU, heq]
      · simp [heq] at h
        rcases ih (i0 + 1) i h hne with ⟨k', hk', hfound, hbefore⟩
        refine ⟨k' + 1, by push_cast at hk' ⊢; omega, by simpa using hfound, ?_⟩
        intro j b hj hjb
        cases j with
        | zero =>
          have hb : a0 = b := by simpa using hjb
          subst hb
          rw [hU]
          exact ⟨rfl, heq⟩
        | succ j' =>
          exact hbefore j' b (by omega) (by simpa using hjb)

/-- **C6 amended**: the attribute search always reports a nil error; a
non-negative result is the index of the first attribute that resolves to
the target under the RDF namespace, with every earlier attribute resolving
to something else; a -1 result means no attribute all of whose
predecessors (itself included) resolve matches the target.  The original
claim fails because the scan breaks at the first attribute whose prefix
does not resolve instead of skipping it, so a matching attribute placed
after an unresolvable one is not found. -/
theorem c6_first_resolvable_match (st : PState) (tag : Tag) (an : String) :
    (getRDFAttributeIndex st tag an).2 = none ∧
    ((getRDFAttributeIndex st tag an).1 ≠ -1 →
      ∃ k : Nat, (getRDFAttributeIndex st tag an).1 = (k : Int) ∧
        (∃ a, tag.attrs.get? k = some a ∧
          uriFromPair st a.schemaName a.name = (AddFragment st.rdfNS an, none)) ∧
        ∀ (j : Nat) (b : Attribute), j < k → tag.attrs.get? j = some b →
          (uriFromPair st b.schemaName b.name).2 = none ∧
          (uriFromPair st b.schemaName b.name).1 ≠ AddFragment st.rdfNS an) ∧
    ((getRDFAttributeIndex st tag an).1 = -1 →
      ∀ (k : Nat) (a : Attribute), tag.attrs.get? k = some a →
        (∀ (j : Nat) (b : Attribute), j ≤ k → tag.attrs.get? j = some b →
          (uriFromPair st b.schemaName b.name).2 = none) →
        (uriFromPair st a.schemaName a.name).1 ≠ AddFragment st.rdfNS an) := by
  refine ⟨rfl, ?_, ?_⟩
  · intro hne
    have := rdfAttrIdxLoop_pos st an tag.attrs 0 _ rfl hne
    simpa using this
  · intro hm
    exact rdfAttrIdxLoop_neg st an tag.attrs 0 hm

/-- Witness for the amended C6 statement: in a state binding only `rdf`,
the search on a tag whose single attribute is `rdf:about` finds index 0
with the stated first-match properties. -/
theorem c6_first_resolvable_match_witness :
    (getRDFAttributeIndex stRdfOnly tagAbout "about").2 = none ∧
    ∃ k : Nat, (getRDFAttributeIndex stRdfOnly tagAbout "about").1 = (k : Int) ∧
      (∃ a, tagAbout.attrs.get? k = some a ∧
        uriFromPair stRdfOnly a.schemaName a.name =
          (AddFragment stRdfOnly.rdfNS "about", none)) ∧
      ∀ (j : Nat) (b : Attribute), j < k → tagAbout.attrs.get? j = some b →
        (uriFromPair stRdfOnly b.schemaName b.name).2 = none ∧
        (uriFromPair stRdfOnly b.schemaName b.name).1 ≠
          AddFragment stRdfOnly.rdfNS "about" :=
  ⟨(c6_first_resolvable_match stRdfOnly tagAbout "about").1,
   (c6_first_resolvable_match stRdfOnly tagAbout "about").2.1 (by decide)⟩

/-! ### Join-counter accounting (C3) -/

theorem nodeFromTag_shape (st : PState) (tag : Tag) :
    ∃ (n : Node) (g : BlankNodeGetter),
      nodeFromTag st tag = (n, { st with blankNodeGetter := g }, none) := by
  unfold nodeFromTag getRDFAttributeIndex
  dsimp only
  by_cases h1 : rdfAttrIdxLoop st "about" tag.attrs 0 = -1
  · by_cases h2 : rdfAttrIdxLoop st "nodeID" tag.attrs 0 = -1
    · simp only [h1, h2, if_pos, if_true, ite_true]
      exact ⟨_, _, rfl⟩
    · simp only [h1, if_true, ite_true, h2, if_false, ite_false]
      exact ⟨_, _, rfl⟩
  · simp only [h1, if_false, ite_false]
    exact ⟨_, st.blankNodeGetter, rfl⟩

theorem preds_tail_step (f : Nat)
    (ihQ : ∀ (st : PState) (subjTag : Tag) (node : Node) (preds : List Block) (r : PState),
        goPreds f st subjTag node preds = r →
        (r.perr = none → r.wg = st.wg) ∧ (r.perr ≠ none → st.wg ≤ r.wg))
    (ihR : ∀ (st : PState) (node pn : Node) (objs : List Block) (r : PState),
        goObjs f st node pn objs = r →
        (r.perr = none → r.wg = st.wg) ∧ (r.perr ≠ none → st.wg ≤ r.wg))
    (st4 : PState) (subjTag : Tag) (node pn0 : Node) (kids rest : List Block) (r : PState)
    (h : (if (goObjs f st4 node pn0 kids).perr.isSome = true
          then goObjs f st4 node pn0 kids
          else goPreds f (goObjs f st4 node pn0 kids) subjTag node rest) = r) :
    (r.perr = none → r.wg = st4.wg) ∧ (r.perr ≠ none → st4.wg ≤ r.wg) := by
  obtain ⟨hR1, hR2⟩ := ihR st4 node pn0 kids _ rfl
  by_cases hp : (goObjs f st4 node pn0 kids).perr = none
  · rw [if_neg (by simp [hp])] at h
    obtain ⟨hQ1, hQ2⟩ := ihQ _ subjTag node rest r h
    have hw := hR1 hp
    refine ⟨fun hc => by rw [hQ1 hc, hw], fun hc => ?_⟩
    have := hQ2 hc
    omega
  · rw [if_pos (by simp [Option.isSome_iff_ne_none, hp])] at h
    subst h
    exact ⟨fun hc => absurd hc hp, fun _ => hR2 hp⟩

theorem objs_tail_step (f : Nat)
    (ihP : ∀ (st : PState) (blk : Block) (node : Node) (r : PState),
        parseBlock f st blk node = r →
        (r.perr = none → r.wg = st.wg - 1) ∧ (r.perr ≠ none → st.wg ≤ r.wg))
    (ihR : ∀ (st : PState) (node pn : Node) (objs : List Block) (r : PState),
        goObjs f st node pn objs = r →
        (r.perr = none → r.wg = st.wg) ∧ (r.perr ≠ none → st.wg ≤ r.wg))
    (st3 : PState) (node pn : Node) (ob : Block) (onode : Node) (rest : List Block)
    (r : PState) (w : Int) (hw3 : st3.wg = w + 1)
    (h : (if (parseBlock f st3 ob onode).perr.isSome = true
          then parseBlock f st3 ob onode
          else goObjs f (parseBlock f st3 ob onode) node pn rest) = r) :
    (r.perr = none → r.wg = w) ∧ (r.perr ≠ none → w ≤ r.wg) := by
  obtain ⟨hP1, hP2⟩ := ihP st3 ob onode _ rfl
  by_cases hp : (parseBlock f st3 ob onode).perr = none
  · rw [if_neg (by simp [hp])] at h
    obtain ⟨hR1, hR2⟩ := ihR _ node pn rest r h
    have hw := hP1 hp
    refine ⟨fun hc => by rw [hR1 hc, hw]; omega, fun hc => ?_⟩
    have := hR2 hc
    omega
  · rw [if_pos (by simp [Option.isSome_iff_ne_none, hp])] at h
    subst h
    have := hP2 hp
    exact ⟨fun hc => absurd hc hp, fun _ => by omega⟩

theorem wg_spec (fuel : Nat) :
    (∀ (st : PState) (blk : Block) (node : Node) (r : PState),
        parseBlock fuel st blk node = r →
        (r.perr = none → r.wg = st.wg - 1) ∧ (r.perr ≠ none → st.wg ≤ r.wg)) ∧
    (∀ (st : PState) (subjTag : Tag) (node : Node) (preds : List Block) (r : PState),
        goPreds fuel st subjTag node preds = r →
        (r.perr = none → r.wg = st.wg) ∧ (r.perr ≠ none → st.wg ≤ r.wg)) ∧
    (∀ (st : PState) (node pn : Node) (objs : List Block) (r : PState),
        goObjs fuel st node pn objs = r →
        (r.perr = none → r.wg = st.wg) ∧ (r.perr ≠ none → st.wg ≤ r.wg)) := by
  induction fuel with
  | zero =>
    refine ⟨?_, ?_, ?_⟩
    · intro st blk node r h
      simp only [parseBlock] at h
      subst h
      simp
    · intro st subjTag node preds r h
      simp only [goPreds] at h
      subst h
      simp
    · intro st node pn objs r h
      simp only [goObjs] at h
      subst h
      simp
  | succ f ih =>
    obtain ⟨ihP, ihQ, ihR⟩ := ih
    refine ⟨?_, ?_, ?_⟩
    · intro st blk node r h
      simp only [parseBlock] at h
      obtain ⟨hq1, hq2⟩ := ihQ st blk.openingTag node blk.children _ rfl
      by_cases hp : (goPreds f st blk.openingTag node blk.children).perr = none
      · rw [if_neg (by simp [hp])] at h
        subst h
        refine ⟨fun _ => by rw [hq1 hp], fun hc => absurd hp ?_⟩
        simp_all
      · rw [if_pos (by simp [Option.isSome_iff_ne_none, hp])] at h
        subst h
        exact ⟨fun hc => absurd hc hp, fun _ => hq2 hp⟩
    · intro st subjTag node preds r h
      cases preds with
      | nil =>
        simp only [goPreds] at h
        subst h
        exact ⟨fun _ => rfl, fun _ => le_refl _⟩
      | cons pb rest =>
        simp only [goPreds] at h
        obtain ⟨pn0, g0, hn⟩ := nodeFromTag_shape st pb.openingTag
        rw [hn] at h
        dsimp only at h
        simp only [Option.isSome_none, Bool.false_eq_true, if_false, ite_false] at h
        rcases hU : uriFromPair { st with blankNodeGetter := g0, perr := none }
            subjTag.schemaName subjTag.name with ⟨u, e2⟩
        rw [hU] at h
        cases e2 with
        | some e0 =>
          simp only [Option.isSome_some, if_true, ite_true] at h
          subst h
          exact ⟨fun hc => by simp at hc, fun _ => le_refl _⟩
        | none =>
          simp only [Option.isSome_none, Bool.false_eq_true, if_false, ite_false,
            appendTriple, getRDFAttributeIndex] at h
          by_cases hemp : pb.children.isEmpty
          · simp only [hemp, if_true, ite_true, Option.isSome_none, Bool.false_eq_true,
              if_false, ite_false] at h
            have hres := preds_tail_step f ihQ ihR _ subjTag node pn0 pb.children rest r h
            exact hres
          · simp only [hemp, if_false, ite_false, Option.isSome_none, Bool.false_eq_true,
              if_true, ite_true] at h
            have hres := preds_tail_step f ihQ ihR _ subjTag node pn0 pb.children rest r h
            exact hres
    · intro st node pn objs r h
      cases objs with
      | nil =>
        simp only [goObjs] at h
        subst h
        exact ⟨fun _ => rfl, fun _ => le_refl _⟩
      | cons ob rest =>
        simp only [goObjs] at h
        obtain ⟨on0, g0, hn⟩ := nodeFromTag_shape st ob.openingTag
        rw [hn] at h
        dsimp only at h
        simp only [Option.isSome_none, Bool.false_eq_true, if_false, ite_false,
          appendTriple] at h
        have hres := objs_tail_step f ihP ihR _ node pn ob on0 rest r st.wg rfl h
        exact hres


/-- **C3**: when a scheduled extraction unit ends with an error, `wg.Done`
is never reached (it sits after the loop, past every early return), so the
join counter — incremented by the scheduler before the unit started —
remains strictly positive after the unit and all units it transitively
scheduled have finished; the modelled final wait completes only at counter
zero, so `Parse`'s wait never completes on such documents. -/
theorem c3_failed_unit_never_reaches_done (fuel : Nat) (st : PState) (blk : Block)
    (node : Node) (h0 : 0 ≤ st.wg)
    (herr : (parseBlock fuel { st with wg := st.wg + 1 } blk node).perr ≠ none) :
    1 ≤ (parseBlock fuel { st with wg := st.wg + 1 } blk node).wg ∧
    (parseBlock fuel { st with wg := st.wg + 1 } blk node).wg ≠ 0 := by
  have h := ((wg_spec fuel).1 { st with wg := st.wg + 1 } blk node _ rfl).2 herr
  simp only [PState.wg] at h
  constructor
  · omega
  · omega

/-- Witness for C3: the unit for a block whose tag has the undeclared
prefix `c` (and which has a child) fails and leaves the counter at 1. -/
theorem c3_failed_unit_never_reaches_done_witness :
    0 ≤ stAB.wg ∧
    (parseBlock 9 { stAB with wg := stAB.wg + 1 } blkBadPrefix ⟨.BLANK, "N0"⟩).perr ≠ none ∧
    1 ≤ (parseBlock 9 { stAB with wg := stAB.wg + 1 } blkBadPrefix ⟨.BLANK, "N0"⟩).wg :=
  ⟨by decide, by decide,
   (c3_failed_unit_never_reaches_done 9 stAB blkBadPrefix ⟨.BLANK, "N0"⟩
     (by decide) (by decide)).1⟩


/-! ### Literal emission for childless predicate blocks (C5) -/

/-- **C5**: for a predicate block with no children, the extraction step
for that block inserts the triple (subject node, predicate node,
Literal(objectValue)) into the store, where objectValue is the value of
the block's `rdf:resource` attribute when the attribute search finds one
and the block's text value otherwise; the object is wrapped as a Literal
node even in the `rdf:resource` case. -/
theorem c5_childless_predicate_emits_literal (fuel : Nat) (st : PState) (subjTag : Tag)
    (node : Node) (pb : Block) (rest : List Block)
    (hnc : pb.children = [])
    (hres : (uriFromPair st subjTag.schemaName subjTag.name).2 = none) :
    ∃ st' : PState,
      goPreds (fuel + 2) st subjTag node (pb :: rest) =
        goPreds (fuel + 1) st' subjTag node rest ∧
      lookupKV st'.Triples
          (Triple.Hash ⟨node, (nodeFromTag st pb.openingTag).1,
            ⟨.LITERAL,
              if (getRDFAttributeIndex st pb.openingTag "resource").1 ≠ -1 then
                attrValueAt pb.openingTag (getRDFAttributeIndex st pb.openingTag "resource").1
              else pb.value⟩⟩) =
        some ⟨node, (nodeFromTag st pb.openingTag).1,
          ⟨.LITERAL,
            if (getRDFAttributeIndex st pb.openingTag "resource").1 ≠ -1 then
              attrValueAt pb.openingTag (getRDFAttributeIndex st pb.openingTag "resource").1
            else pb.value⟩⟩ := by
  obtain ⟨pn0, g0, hn⟩ := nodeFromTag_shape st pb.openingTag
  rcases hU : uriFromPair st subjTag.schemaName subjTag.name with ⟨u, e⟩
  rw [hU] at hres
  simp only at hres
  subst hres
  have hU' : uriFromPair { st with blankNodeGetter := g0, perr := none }
      subjTag.schemaName subjTag.name = (u, none) := hU
  simp only [goPreds]
  rw [hn]
  dsimp only
  rw [hU']
  simp only [Option.isSome_none, Bool.false_eq_true, if_false, ite_false,
    Option.isSome_some, appendTriple, getRDFAttributeIndex, hnc, List.isEmpty_nil,
    if_true, ite_true, goObjs]
  refine ⟨_, rfl, ?_⟩
  simp only [getRDFAttributeIndex, rdfAttrIdxLoop_eq]
  rw [lookupKV_updKV, if_pos rfl]

/-- Witness for C5 at a concrete childless predicate block carrying
`rdf:resource`: the emitted object is the Literal-wrapped resource URI. -/
theorem c5_childless_predicate_emits_literal_witness :
    ∃ st' : PState,
      goPreds 2 stAB ⟨"a", "S", []⟩ ⟨.IRI, "http://s/"⟩ (pbResource :: []) =
        goPreds 1 st' ⟨"a", "S", []⟩ ⟨.IRI, "http://s/"⟩ [] ∧
      lookupKV st'.Triples
          (Triple.Hash ⟨⟨.IRI, "http://s/"⟩, (nodeFromTag stAB pbResource.openingTag).1,
            ⟨.LITERAL,
              if (getRDFAttributeIndex stAB pbResource.openingTag "resource").1 ≠ -1 then
                attrValueAt pbResource.openingTag
                  (getRDFAttributeIndex stAB pbResource.openingTag "resource").1
              else pbResource.value⟩⟩) =
        some ⟨⟨.IRI, "http://s/"⟩, (nodeFromTag stAB pbResource.openingTag).1,
          ⟨.LITERAL,
            if (getRDFAttributeIndex stAB pbResource.openingTag "resource").1 ≠ -1 then
              attrValueAt pbResource.openingTag
                (getRDFAttributeIndex stAB pbResource.openingTag "resource").1
            else pbResource.value⟩⟩ :=
  c5_childless_predicate_emits_literal 0 stAB ⟨"a", "S", []⟩ ⟨.IRI, "http://s/"⟩
    pbResource [] rfl (by decide)


/-! ### Blank-node numbering injectivity and node identity (C4) -/

theorem str_append_cancel (p a b : String) (h : p ++ a = p ++ b) : a = b := by
  have h2 := congrArg String.data h
  rw [String.data_append, String.data_append] at h2
  have h3 := List.append_cancel_left h2
  cases a with
  | mk da =>
    cases b with
    | mk db => simp only at h3; rw [h3]

theorem digitChar_toNat (m : Nat) (h : m < 10) : (Nat.digitChar m).toNat = 48 + m := by
  interval_cases m <;> decide

theorem digitsVal_append (l : List Char) (c : Char) :
    digitsVal (l ++ [c]) = digitsVal l * 10 + (c.toNat - 48) := by
  simp [digitsVal, List.foldl_append]

theorem decDigitsAux_val (f : Nat) : ∀ n, n < f → digitsVal (decDigitsAux f n) = n := by
  induction f with
  | zero => intro n h; omega
  | succ f ih =>
    intro n h
    simp only [decDigitsAux]
    by_cases h10 : n < 10
    · rw [if_pos h10]
      simp only [digitsVal, List.foldl_cons, List.foldl_nil]
      rw [digitChar_toNat n h10]
      omega
    · rw [if_neg h10]
      rw [digitsVal_append]
      rw [ih (n / 10) (by omega), digitChar_toNat (n % 10) (by omega)]
      omega

theorem decDigits_val (n : Nat) : digitsVal (decDigits n) = n :=
  decDigitsAux_val (n + 1) n (by omega)

theorem decDigits_inj (m n : Nat) (h : decDigits m = decDigits n) : m = n := by
  have h1 := decDigits_val m
  rw [h, decDigits_val] at h1
  omega

theorem decDigitsAux_head (f : Nat) : ∀ n, n < f →
    ∃ c l, decDigitsAux f n = c :: l ∧ 48 ≤ c.toNat ∧ c.toNat ≤ 57 := by
  induction f with
  | zero => intro n h; omega
  | succ f ih =>
    intro n h
    simp only [decDigitsAux]
    by_cases h10 : n < 10
    · rw [if_pos h10]
      refine ⟨_, _, rfl, ?_, ?_⟩ <;> rw [digitChar_toNat n h10] <;> omega
    · rw [if_neg h10]
      obtain ⟨c, l, hcl, h1, h2⟩ := ih (n / 10) (by omega)
      exact ⟨c, l ++ [Nat.digitChar (n % 10)], by rw [hcl]; rfl, h1, h2⟩

theorem decDigits_head (n : Nat) :
    ∃ c l, decDigits n = c :: l ∧ 48 ≤ c.toNat ∧ c.toNat ≤ 57 :=
  decDigitsAux_head (n + 1) n (by omega)

theorem intRepr_inj (i j : Int) (h : intRepr i = intRepr j) : i = j := by
  unfold intRepr at h
  by_cases hi : i < 0 <;> by_cases hj : j < 0
  · rw [if_pos hi, if_pos hj] at h
    have h2 := str_append_cancel "-" _ _ h
    injection h2 with h3
    have := decDigits_inj _ _ h3
    omega
  · rw [if_pos hi, if_neg hj] at h
    have h2 := congrArg String.data h
    rw [String.data_append] at h2
    obtain ⟨c, l, hcl, h48, _⟩ := decDigits_head j.toNat
    rw [hcl] at h2
    simp only [List.cons_append, List.nil_append] at h2
    injection h2 with h2a h2b
    rw [← h2a] at h48
    have hm : ('-').toNat = 45 := rfl
    omega
  · rw [if_neg hi, if_pos hj] at h
    have h2 := congrArg String.data h
    rw [String.data_append] at h2
    obtain ⟨c, l, hcl, h48, _⟩ := decDigits_head i.toNat
    rw [hcl] at h2
    simp only [List.cons_append, List.nil_append] at h2
    injection h2 with h2a h2b
    rw [h2a] at h48
    have hm : ('-').toNat = 45 := rfl
    omega
  · rw [if_neg hi, if_neg hj] at h
    injection h with h3
    have := decDigits_inj _ _ h3
    omega


theorem GetFromId_cache_persist (g : BlankNodeGetter) (id v : String) (n : Node)
    (h : lookupKV g.cache v = some n) :
    lookupKV (g.GetFromId id).2.cache v = some n := by
  rcases hc : lookupKV g.cache id with _ | m
  · simp only [BlankNodeGetter.GetFromId, hc]
    rw [lookupKV_updKV]
    by_cases hid : id = v
    · rw [hid] at hc
      rw [hc] at h
      exact absurd h (by simp)
    · rw [if_neg hid]
      exact h
  · simp only [BlankNodeGetter.GetFromId, hc]
    exact h

theorem GetFromId_lastID (g : BlankNodeGetter) (id : String) :
    (g.GetFromId id).2.lastID = g.lastID := by
  rcases hc : lookupKV g.cache id with _ | m <;>
    simp [BlankNodeGetter.GetFromId, hc]

theorem GetFromId_caches (g : BlankNodeGetter) (v : String) :
    lookupKV (g.GetFromId v).2.cache v = some (g.GetFromId v).1 := by
  rcases hc : lookupKV g.cache v with _ | m
  · simp only [BlankNodeGetter.GetFromId, hc]
    rw [lookupKV_updKV]
    simp
  · simp only [BlankNodeGetter.GetFromId, hc]

theorem GetFromId_of_lookup (g : BlankNodeGetter) (id : String) (n : Node)
    (h : lookupKV g.cache id = some n) : g.GetFromId id = (n, g) := by
  simp only [BlankNodeGetter.GetFromId, h]

theorem nodeFromTag_fields (st : PState) (tag : Tag) :
    (nodeFromTag st tag).2.1.schemaDefinition = st.schemaDefinition ∧
    (nodeFromTag st tag).2.1.rdfNS = st.rdfNS := by
  obtain ⟨n, g, hg⟩ := nodeFromTag_shape st tag
  rw [hg]
  exact ⟨rfl, rfl⟩

theorem nodeFromTag_getter (st : PState) (tag : Tag) :
    st.blankNodeGetter.lastID ≤ (nodeFromTag st tag).2.1.blankNodeGetter.lastID ∧
    ∀ (v : String) (n : Node), lookupKV st.blankNodeGetter.cache v = some n →
      lookupKV (nodeFromTag st tag).2.1.blankNodeGetter.cache v = some n := by
  unfold nodeFromTag getRDFAttributeIndex
  dsimp only
  by_cases h1 : rdfAttrIdxLoop st "about" tag.attrs 0 = -1
  · by_cases h2 : rdfAttrIdxLoop st "nodeID" tag.attrs 0 = -1
    · simp only [h1, h2, if_pos, if_true, ite_true]
      dsimp only [BlankNodeGetter.Get]
      exact ⟨by omega, fun v n h => h⟩
    · simp only [h1, if_true, ite_true, h2, if_false, ite_false]
      refine ⟨?_, fun v n h => GetFromId_cache_persist _ _ v n h⟩
      rw [GetFromId_lastID]
  · simp only [h1, if_false, ite_false]
    exact ⟨le_refl _, fun v n h => h⟩

theorem evalTags_fields (ts : List Tag) : ∀ st : PState,
    (evalTags st ts).schemaDefinition = st.schemaDefinition ∧
    (evalTags st ts).rdfNS = st.rdfNS := by
  induction ts with
  | nil => intro st; exact ⟨rfl, rfl⟩
  | cons t ts ih =>
    intro st
    have h1 := nodeFromTag_fields st t
    have h2 := ih (nodeFromTag st t).2.1
    simp only [evalTags]
    exact ⟨h2.1.trans h1.1, h2.2.trans h1.2⟩

theorem evalTags_getter (ts : List Tag) : ∀ st : PState,
    st.blankNodeGetter.lastID ≤ (evalTags st ts).blankNodeGetter.lastID ∧
    ∀ (v : String) (n : Node), lookupKV st.blankNodeGetter.cache v = some n →
      lookupKV (evalTags st ts).blankNodeGetter.cache v = some n := by
  induction ts with
  | nil => intro st; exact ⟨le_refl _, fun v n h => h⟩
  | cons t ts ih =>
    intro st
    have h1 := nodeFromTag_getter st t
    have h2 := ih (nodeFromTag st t).2.1
    simp only [evalTags]
    exact ⟨le_trans h1.1 h2.1, fun v n h => h2.2 v n (h1.2 v n h)⟩

/-- **C4**: node derivation from an opening tag ("present" means found by
the attribute search): when `rdf:about` is found, the node is
IRI(attribute value) and the parser state is untouched; when instead
`rdf:nodeID` is found, two tags carrying the same id resolve to the
identical node no matter which derivations intervene (the getter returns
the cached node or mints and caches one, and a cached binding persists
through every later derivation); with neither attribute found, the two
minted blank nodes are distinct no matter which derivations intervene
(the counter never decreases).  Intervening activity is an arbitrary
`evalTags` chain, since only `nodeFromTag` touches the blank-node
getter during extraction. -/
theorem c4_nodeFromTag_node_identity :
    (∀ (st : PState) (tag : Tag),
        (getRDFAttributeIndex st tag "about").1 ≠ -1 →
        nodeFromTag st tag =
          (⟨.IRI, attrValueAt tag (getRDFAttributeIndex st tag "about").1⟩, st, none)) ∧
    (∀ (st : PState) (t1 t2 : Tag) (ts : List Tag) (v : String),
        (getRDFAttributeIndex st t1 "about").1 = -1 →
        (getRDFAttributeIndex st t2 "about").1 = -1 →
        (getRDFAttributeIndex st t1 "nodeID").1 ≠ -1 →
        (getRDFAttributeIndex st t2 "nodeID").1 ≠ -1 →
        attrValueAt t1 (getRDFAttributeIndex st t1 "nodeID").1 = v →
        attrValueAt t2 (getRDFAttributeIndex st t2 "nodeID").1 = v →
        (nodeFromTag (evalTags (nodeFromTag st t1).2.1 ts) t2).1 =
          (nodeFromTag st t1).1) ∧
    (∀ (st : PState) (t1 t2 : Tag) (ts : List Tag),
        (getRDFAttributeIndex st t1 "about").1 = -1 →
        (getRDFAttributeIndex st t2 "about").1 = -1 →
        (getRDFAttributeIndex st t1 "nodeID").1 = -1 →
        (getRDFAttributeIndex st t2 "nodeID").1 = -1 →
        (nodeFromTag (evalTags (nodeFromTag st t1).2.1 ts) t2).1 ≠
          (nodeFromTag st t1).1 ∧
        (nodeFromTag st t1).1.ntype = .BLANK) := by
  refine ⟨?_, ?_, ?_⟩
  · intro st tag h
    simp only [getRDFAttributeIndex] at h
    unfold nodeFromTag
    simp only [getRDFAttributeIndex]
    rw [if_neg h]
  · intro st t1 t2 ts v ha1 ha2 hn1 hn2 hv1 hv2
    simp only [getRDFAttributeIndex, rdfAttrIdxLoop_eq] at ha1 ha2 hn1 hn2 hv1 hv2
    have e1 : nodeFromTag st t1 =
        ((st.blankNodeGetter.GetFromId v).1,
          { st with blankNodeGetter := (st.blankNodeGetter.GetFromId v).2 }, none) := by
      unfold nodeFromTag
      simp only [getRDFAttributeIndex, rdfAttrIdxLoop_eq]
      rw [if_pos ha1, if_neg hn1, hv1]
    rw [e1]
    dsimp only
    have hsd : (evalTags
        { st with blankNodeGetter := (st.blankNodeGetter.GetFromId v).2 }
          ts).schemaDefinition = st.schemaDefinition :=
      (evalTags_fields ts _).1
    have hns : (evalTags
        { st with blankNodeGetter := (st.blankNodeGetter.GetFromId v).2 }
          ts).rdfNS = st.rdfNS :=
      (evalTags_fields ts _).2
    have hpers : lookupKV (evalTags
        { st with blankNodeGetter := (st.blankNodeGetter.GetFromId v).2 }
          ts).blankNodeGetter.cache v = some ((st.blankNodeGetter.GetFromId v).1) :=
      (evalTags_getter ts _).2 v _ (GetFromId_caches st.blankNodeGetter v)
    unfold nodeFromTag
    simp only [getRDFAttributeIndex, rdfAttrIdxLoop_eq, hsd, hns]
    rw [if_pos ha2, if_neg hn2, hv2]
    dsimp only
    rw [GetFromId_of_lookup _ v _ hpers]
  · intro st t1 t2 ts ha1 ha2 hn1 hn2
    simp only [getRDFAttributeIndex, rdfAttrIdxLoop_eq] at ha1 ha2 hn1 hn2
    have e1 : nodeFromTag st t1 =
        (st.blankNodeGetter.Get.1,
          { st with blankNodeGetter := st.blankNodeGetter.Get.2 }, none) := by
      unfold nodeFromTag
      simp only [getRDFAttributeIndex, rdfAttrIdxLoop_eq]
      rw [if_pos ha1, if_pos hn1]
    rw [e1]
    dsimp only
    have hsd : (evalTags
        { st with blankNodeGetter := st.blankNodeGetter.Get.2 }
          ts).schemaDefinition = st.schemaDefinition :=
      (evalTags_fields ts _).1
    have hns : (evalTags
        { st with blankNodeGetter := st.blankNodeGetter.Get.2 }
          ts).rdfNS = st.rdfNS :=
      (evalTags_fields ts _).2
    have hmono : st.blankNodeGetter.lastID + 1 ≤ (evalTags
        { st with blankNodeGetter := st.blankNodeGetter.Get.2 }
          ts).blankNodeGetter.lastID :=
      (evalTags_getter ts _).1
    constructor
    · unfold nodeFromTag
      simp only [getRDFAttributeIndex, rdfAttrIdxLoop_eq, hsd, hns]
      rw [if_pos ha2, if_pos hn2]
      dsimp only [BlankNodeGetter.Get] at hmono ⊢
      intro hEq
      injection hEq with hty hid
      have h3 := str_append_cancel "N" _ _ hid
      have h4 := intRepr_inj _ _ h3
      omega
    · dsimp only [BlankNodeGetter.Get]

/-- Witness for C4: in a state binding `a` and `rdf`, a tag carrying
`rdf:about` yields the IRI node; two tags carrying `rdf:nodeID="n1"`
resolve to the identical node across two intervening derivations (one
fresh mint and one `rdf:about`); two plain tags mint distinct blanks
across two intervening derivations. -/
theorem c4_nodeFromTag_node_identity_witness :
    nodeFromTag stAB tagAbout =
      (⟨.IRI, attrValueAt tagAbout (getRDFAttributeIndex stAB tagAbout "about").1⟩,
        stAB, none) ∧
    (nodeFromTag (evalTags (nodeFromTag stAB tagNodeId1).2.1 [tagPlain1, tagAbout])
        tagNodeId2).1 = (nodeFromTag stAB tagNodeId1).1 ∧
    (nodeFromTag (evalTags (nodeFromTag stAB tagPlain1).2.1 [tagNodeId1, tagAbout])
        tagPlain2).1 ≠ (nodeFromTag stAB tagPlain1).1 :=
  ⟨c4_nodeFromTag_node_identity.1 stAB tagAbout (by decide),
   c4_nodeFromTag_node_identity.2.1 stAB tagNodeId1 tagNodeId2 [tagPlain1, tagAbout] "n1"
     (by decide) (by decide) (by decide) (by decide) (by decide) (by decide),
   (c4_nodeFromTag_node_identity.2.2 stAB tagPlain1 tagPlain2 [tagNodeId1, tagAbout]
     (by decide) (by decide) (by decide) (by decide)).1⟩


/-! ### Attribute-value characterization (C10) -/

theorem isDelim_def (m : Nat) (c : Char) :
    isDelim m c = (decide (c.toNat < 64) && m.testBit c.toNat) := by
  unfold isDelim
  rw [Nat.testBit_mod_two_pow]

theorem isDelim_or (a b : Nat) (c : Char) :
    isDelim (a ||| b) c = (isDelim a c || isDelim b c) := by
  simp only [isDelim_def, Nat.testBit_or, Bool.and_or_distrib_left]

theorem ws_char_vals (c : Char) (h : isDelim WHITESPACE c = true) :
    c.toNat = 9 ∨ c.toNat = 10 ∨ c.toNat = 13 ∨ c.toNat = 32 := by
  rw [isDelim_def] at h
  simp only [Bool.and_eq_true, decide_eq_true_eq] at h
  obtain ⟨h64, hbit⟩ := h
  have h33 : c.toNat < 33 := by
    by_contra hge
    have hlt : WHITESPACE < 2 ^ c.toNat := by
      calc WHITESPACE < 2 ^ 33 := by decide
        _ ≤ 2 ^ c.toNat := Nat.pow_le_pow_right (by omega) (by omega)
    rw [Nat.testBit_lt_two_pow hlt] at hbit
    exact Bool.false_ne_true hbit
  revert hbit
  generalize c.toNat = n at h64 h33 ⊢
  interval_cases n <;> decide

theorem ws_ne_dquote (c : Char) (h : isDelim WHITESPACE c = true) : c ≠ dquote := by
  have hv := ws_char_vals c h
  intro he
  rw [he] at hv
  have : dquote.toNat = 34 := rfl
  omega

theorem readTillG_split (mask : Nat) (v w : List Char) (c : Char)
    (hv : ∀ x ∈ v, isDelim mask x = false) (hc : isDelim mask c = true) :
    readTillG mask (v ++ c :: w) = (v, c :: w, none) := by
  induction v with
  | nil => simp [readTillG, hc]
  | cons a t ih =>
    have ha : isDelim mask a = false := hv a (by simp)
    simp [readTillG, ha, ih (fun x hx => hv x (by simp [hx]))]

theorem readTillG_ok (mask : Nat) (s w r : List Char)
    (h : readTillG mask s = (w, r, none)) :
    (∀ x ∈ w, isDelim mask x = false) ∧
      ∃ d t, r = d :: t ∧ isDelim mask d = true := by
  induction s generalizing w with
  | nil => simp [readTillG] at h
  | cons a t ih =>
    simp only [readTillG] at h
    by_cases ha : isDelim mask a
    · rw [if_pos ha] at h
      simp only [Prod.mk.injEq] at h
      obtain ⟨hw, hr, _⟩ := h
      subst hw
      exact ⟨by simp, a, t, hr.symm, ha⟩
    · rw [if_neg ha] at h
      rcases hrt : readTillG mask t with ⟨w2, r2, e2⟩
      rw [hrt] at h
      simp only [Prod.mk.injEq] at h
      obtain ⟨hw, hr, he⟩ := h
      subst hw
      cases e2 with
      | some e => exact absurd he.symm (by simp)
      | none =>
        rw [hr] at hrt
        obtain ⟨ihchars, d, t2, hrr, hd⟩ := ih w2 hrt
        refine ⟨?_, d, t2, hrr, hd⟩
        intro x hx
        rcases List.mem_cons.mp hx with hxa | hxw
        · rw [hxa]
          exact eq_false_of_ne_true ha
        · exact ihchars x hxw

theorem ws_ne_quote (c q0 : Char) (h : isDelim WHITESPACE c = true)
    (hq : q0 = squote ∨ q0 = dquote) : q0 ≠ c := by
  have hv := ws_char_vals c h
  have hs : squote.toNat = 39 := rfl
  have hd : dquote.toNat = 34 := rfl
  rcases hq with h0 | h0 <;> subst h0 <;> intro he <;> rw [← he] at hv <;> omega

theorem ignoreWhiteSpaceG_skip (wsp : List Char) (c : Char) (t : List Char)
    (hws : ∀ x ∈ wsp, isDelim WHITESPACE x = true)
    (hc : isDelim WHITESPACE c = false) :
    ignoreWhiteSpaceG (wsp ++ c :: t) = (wsp.length, c :: t, none) := by
  induction wsp with
  | nil => simp [ignoreWhiteSpaceG, hc]
  | cons a wr ih =>
    have ha : isDelim WHITESPACE a = true := hws a (by simp)
    simp [ignoreWhiteSpaceG, ha, ih (fun x hx => hws x (by simp [hx]))]

theorem readTillG_decomp (mask : Nat) (s : List Char) :
    s = (readTillG mask s).1 ++ (readTillG mask s).2.1 := by
  induction s with
  | nil => rfl
  | cons a t ih =>
    by_cases ha : isDelim mask a
    · simp [readTillG, ha]
    · have ha2 : isDelim mask a = false := eq_false_of_ne_true ha
      simp only [readTillG, ha2, Bool.false_eq_true, if_false, ite_false,
        List.cons_append, List.cons.injEq, true_and]
      exact ih

theorem readColonPair_decomp (m : Nat) (s : List Char) (pr : ColonPair)
    (ce : Bool) (s' : List Char) (e : Option Err)
    (h : readColonPair m s = (pr, ce, s', e)) : ∃ w0, s = w0 ++ s' := by
  unfold readColonPair at h
  rcases ht : readTillG m s with ⟨w, r, e0⟩
  rw [ht] at h
  have hd := readTillG_decomp m s
  rw [ht] at hd
  cases e0 with
  | some e1 =>
    dsimp only at h
    simp only [Prod.mk.injEq] at h
    obtain ⟨_, _, hs, _⟩ := h
    exact ⟨w, by rw [← hs]; exact hd⟩
  | none =>
    dsimp only at h
    rcases hsp : splitFirstColon w with _ | ⟨a, b⟩
    · rw [hsp] at h
      dsimp only at h
      simp only [Prod.mk.injEq] at h
      obtain ⟨_, _, hs, _⟩ := h
      exact ⟨w, by rw [← hs]; exact hd⟩
    · rw [hsp] at h
      dsimp only at h
      by_cases hb : b.isEmpty
      · rw [if_pos hb] at h
        simp only [Prod.mk.injEq] at h
        obtain ⟨_, _, hs, _⟩ := h
        exact ⟨w, by rw [← hs]; exact hd⟩
      · rw [if_neg hb] at h
        simp only [Prod.mk.injEq] at h
        obtain ⟨_, _, hs, _⟩ := h
        exact ⟨w, by rw [← hs]; exact hd⟩

theorem ignoreWhiteSpaceG_decomp (s : List Char) :
    ∃ wsp, s = wsp ++ (ignoreWhiteSpaceG s).2.1 ∧
      ∀ x ∈ wsp, isDelim WHITESPACE x = true := by
  induction s with
  | nil => exact ⟨[], rfl, by simp⟩
  | cons a t ih =>
    by_cases ha : isDelim WHITESPACE a
    · obtain ⟨wsp, hw, hws⟩ := ih
      refine ⟨a :: wsp, ?_, ?_⟩
      · simp only [ignoreWhiteSpaceG, ha, if_true, ite_true, List.cons_append]
        rw [← hw]
      · intro x hx
        rcases List.mem_cons.mp hx with h0 | h0
        · rw [h0]; exact ha
        · exact hws x h0
    · refine ⟨[], ?_, by simp⟩
      simp [ignoreWhiteSpaceG, ha]

theorem readARuneG_ok (s : List Char) (c : Char) (t : List Char)
    (h : readARuneG s = (c, t, none)) : s = c :: t := by
  cases s with
  | nil => simp [readARuneG] at h
  | cons a r =>
    simp only [readARuneG, Prod.mk.injEq] at h
    obtain ⟨h1, h2, _⟩ := h
    rw [h1, h2]

/-- **C10**: the value scan stops at whitespace as well as at the
delimiting quote.  Error direction, covering every attribute: for any
name word (delimiter-free, every colon split leaving a non-empty
suffix), any whitespace run before the assignment character, and either
quote character, a quoted value containing a whitespace character makes
`readAttribute` fail with the mismatched-quote error even though the
matching closing quote follows later.  Success direction: a successful
run decomposes its input around the two occurrences of the very
character `q` the run consumed as its opening and closing quote —
`s = w0 ++ wsp ++ c3 :: q :: (w ++ q :: rest)` with the returned value
exactly `w` — and the value contains no whitespace and no occurrence of
`q`. -/
theorem c10_value_scan_stops_at_whitespace :
    (∀ (nm wsp : List Char) (q0 : Char) (v w rest : List Char) (c : Char),
        (∀ x ∈ nm, isDelim (WHITESPACE ||| oneShl '=') x = false) →
        (∀ a b, splitFirstColon nm = some (a, b) → b ≠ []) →
        (∀ x ∈ wsp, isDelim WHITESPACE x = true) →
        (q0 = squote ∨ q0 = dquote) →
        (∀ x ∈ v, isDelim (WHITESPACE ||| oneShl q0) x = false) →
        isDelim WHITESPACE c = true →
        (readAttribute
            (nm ++ wsp ++ '=' :: q0 :: (v ++ c :: (w ++ q0 :: rest)))).2.2 =
          some (.msg "unexpected blank char. expected a closing quote")) ∧
    (∀ (s : List Char) (attr : Attribute) (rest : List Char),
        readAttribute s = (attr, rest, none) →
        ∃ (w0 wsp : List Char) (c3 q : Char) (w : List Char),
          s = w0 ++ wsp ++ c3 :: q :: (w ++ q :: rest) ∧
          attr.value = String.mk w ∧
          (∀ x ∈ wsp, isDelim WHITESPACE x = true) ∧
          isDelim (WHITESPACE ||| oneShl q) q = true ∧
          ∀ x ∈ w, isDelim (WHITESPACE ||| oneShl q) x = false ∧ x ≠ q ∧
            isDelim WHITESPACE x = false) := by
  constructor
  · intro nm wsp q0 v w rest c hnm hcol hwsp hq hv hc
    have hread : readTillG (WHITESPACE ||| oneShl '=')
        (nm ++ wsp ++ '=' :: q0 :: (v ++ c :: (w ++ q0 :: rest))) =
        (nm, wsp ++ '=' :: q0 :: (v ++ c :: (w ++ q0 :: rest)), none) := by
      cases wsp with
      | nil =>
        simpa using readTillG_split (WHITESPACE ||| oneShl '=') nm
          (q0 :: (v ++ c :: (w ++ q0 :: rest))) '=' hnm (by decide)
      | cons a wr =>
        have ha : isDelim (WHITESPACE ||| oneShl '=') a = true := by
          rw [isDelim_or, hwsp a (by simp)]
          simp
        simpa using readTillG_split (WHITESPACE ||| oneShl '=') nm
          (wr ++ '=' :: q0 :: (v ++ c :: (w ++ q0 :: rest))) a hnm ha
    have hcp : ∃ pr ce, readColonPair (WHITESPACE ||| oneShl '=')
        (nm ++ wsp ++ '=' :: q0 :: (v ++ c :: (w ++ q0 :: rest))) =
        (pr, ce, wsp ++ '=' :: q0 :: (v ++ c :: (w ++ q0 :: rest)), none) := by
      unfold readColonPair
      rw [hread]
      dsimp only
      rcases hsp : splitFirstColon nm with _ | ⟨a, b⟩
      · exact ⟨_, _, rfl⟩
      · have hb : b ≠ [] := hcol a b hsp
        cases b with
        | nil => exact absurd rfl hb
        | cons bh bt =>
          dsimp only
          rw [if_neg (by simp)]
          exact ⟨_, _, rfl⟩
    obtain ⟨pr, ce, hcp⟩ := hcp
    have hig : ignoreWhiteSpaceG
        (wsp ++ '=' :: q0 :: (v ++ c :: (w ++ q0 :: rest))) =
        (wsp.length, '=' :: q0 :: (v ++ c :: (w ++ q0 :: rest)), none) :=
      ignoreWhiteSpaceG_skip wsp '=' _ hwsp (by decide)
    have hvread : readTillG (WHITESPACE ||| oneShl q0)
        (v ++ c :: (w ++ q0 :: rest)) =
        (v, c :: (w ++ q0 :: rest), none) := by
      refine readTillG_split _ v _ c hv ?_
      rw [isDelim_or, hc]
      simp
    simp only [readAttribute, hcp]
    try dsimp only
    rw [hig]
    dsimp only [readARuneG]
    rw [hvread]
    dsimp only [readARuneG]
    rw [if_pos (ws_ne_quote c q0 hc hq)]
  · intro s attr rest h
    unfold readAttribute at h
    rcases hp : readColonPair (WHITESPACE ||| oneShl '=') s with ⟨pr, ce, s1, e1⟩
    rw [hp] at h
    cases e1 with
    | some e => simp at h
    | none =>
      obtain ⟨w0, hw0⟩ := readColonPair_decomp _ _ _ _ _ _ hp
      dsimp only at h
      rcases hw : ignoreWhiteSpaceG s1 with ⟨n2, s2, e2⟩
      rw [hw] at h
      cases e2 with
      | some e => simp at h
      | none =>
        obtain ⟨wsp, hwsp1, hwsp2⟩ := ignoreWhiteSpaceG_decomp s1
        rw [hw] at hwsp1
        have hwsp3 : s1 = wsp ++ s2 := hwsp1
        dsimp only at h
        rcases hr3 : readARuneG s2 with ⟨c3, s3, e3⟩
        rw [hr3] at h
        cases e3 with
        | some e => simp at h
        | none =>
          have hs2 : s2 = c3 :: s3 := readARuneG_ok s2 c3 s3 hr3
          dsimp only at h
          rcases hr4 : readARuneG s3 with ⟨q, s4, e4⟩
          rw [hr4] at h
          dsimp only at h
          rcases ht : readTillG (WHITESPACE ||| oneShl q) s4 with ⟨word, s5, e5⟩
          rw [ht] at h
          cases e5 with
          | some e => simp at h
          | none =>
            dsimp only at h
            rcases hr5 : readARuneG s5 with ⟨sq, s6, e6⟩
            rw [hr5] at h
            dsimp only at h
            by_cases hqq : q ≠ sq
            · rw [if_pos hqq] at h
              simp at h
            · rw [if_neg hqq] at h
              push_neg at hqq
              obtain ⟨hchars, d, t, hrr, hd⟩ := readTillG_ok _ _ _ _ ht
              subst hrr
              simp only [readARuneG, Prod.mk.injEq] at hr5
              obtain ⟨hdq, hs6, _⟩ := hr5
              simp only [Prod.mk.injEq] at h
              obtain ⟨hattr, hrest, _⟩ := h
              have hdq2 : d = q := by rw [hdq, hqq]
              have hs3 : s3 = q :: s4 := by
                cases s3 with
                | nil =>
                  simp only [readARuneG, Prod.mk.injEq] at hr4
                  obtain ⟨_, hs4, _⟩ := hr4
                  rw [← hs4] at ht
                  simp [readTillG] at ht
                | cons a r =>
                  simp only [readARuneG, Prod.mk.injEq] at hr4
                  obtain ⟨h1, h2, _⟩ := hr4
                  rw [h1, h2]
              have hs4d : s4 = word ++ d :: t := by
                have hde := readTillG_decomp (WHITESPACE ||| oneShl q) s4
                rw [ht] at hde
                exact hde
              have hqdelim : isDelim (WHITESPACE ||| oneShl q) q = true := by
                rw [hdq2] at hd
                exact hd
              refine ⟨w0, wsp, c3, q, word, ?_, ?_, hwsp2, hqdelim, ?_⟩
              · rw [hw0, hwsp3, hs2, hs3, hs4d, hdq2, hs6, hrest,
                  List.append_assoc]
              · rw [← hattr]
              · intro x hx
                have hxd := hchars x hx
                refine ⟨hxd, ?_, ?_⟩
                · intro hxq
                  rw [hxq, hqdelim] at hxd
                  simp at hxd
                · rw [isDelim_or] at hxd
                  exact (Bool.or_eq_false_iff.mp hxd).1

/-- Witness for C10: the stream `n ='x y'z` — name `n`, whitespace before
the assignment, single quotes, a space inside the value — fails with the
mismatched-quote error although the closing quote follows; the
successful run on `a="v"` decomposes its input around the double quote
that delimited the value `v`. -/
theorem c10_value_scan_stops_at_whitespace_witness :
    (readAttribute (['n'] ++ [' '] ++ '=' :: squote ::
        (['x'] ++ ' ' :: (['y'] ++ squote :: ['z'])))).2.2 =
      some (.msg "unexpected blank char. expected a closing quote") ∧
    ∃ (w0 wsp : List Char) (c3 q : Char) (w : List Char),
      ('a' :: '=' :: dquote :: 'v' :: dquote :: []) =
        w0 ++ wsp ++ c3 :: q :: (w ++ q :: []) ∧
      (⟨"", "a", "v"⟩ : Attribute).value = String.mk w ∧
      (∀ x ∈ wsp, isDelim WHITESPACE x = true) ∧
      isDelim (WHITESPACE ||| oneShl q) q = true ∧
      ∀ x ∈ w, isDelim (WHITESPACE ||| oneShl q) x = false ∧ x ≠ q ∧
        isDelim WHITESPACE x = false :=
  ⟨c10_value_scan_stops_at_whitespace.1 ['n'] [' '] squote ['x'] ['y'] ['z'] ' '
     (by decide) (by intro a b hab; simp [splitFirstColon] at hab) (by decide)
     (Or.inl rfl) (by decide) (by decide),
   c10_value_scan_stops_at_whitespace.2 ('a' :: '=' :: dquote :: 'v' :: dquote :: [])
     ⟨"", "a", "v"⟩ [] (by decide)⟩


/-! ### Names of successfully parsed tags (C8) -/

theorem stringMk_ne_empty (l : List Char) (h : l ≠ []) : String.mk l ≠ "" := by
  intro he
  have h2 := congrArg String.data he
  simp only at h2
  exact h h2

theorem readColonPair_second (m : Nat) (s : List Char) (pr : ColonPair)
    (s' : List Char) (h : readColonPair m s = (pr, true, s', none)) :
    pr.second ≠ "" := by
  unfold readColonPair at h
  rcases ht : readTillG m s with ⟨w, r, e⟩
  rw [ht] at h
  cases e with
  | some e0 => simp at h
  | none =>
    dsimp only at h
    rcases hsp : splitFirstColon w with _ | ⟨a, b⟩
    · rw [hsp] at h
      simp at h
    · rw [hsp] at h
      dsimp only at h
      by_cases hb : b.isEmpty
      · rw [if_pos hb] at h
        simp at h
      · rw [if_neg hb] at h
        simp only [Prod.mk.injEq] at h
        obtain ⟨hpr, _⟩ := h
        rw [← hpr]
        exact stringMk_ne_empty b (by simpa [List.isEmpty_iff] using hb)

theorem ignoreWhiteSpaceG_strip (s : List Char) :
    (ignoreWhiteSpaceG s).2.1 = [] ∨
      ∃ c t, (ignoreWhiteSpaceG s).2.1 = c :: t ∧ isDelim WHITESPACE c = false := by
  induction s with
  | nil => exact .inl rfl
  | cons c t ih =>
    by_cases hc : isDelim WHITESPACE c
    · simpa [ignoreWhiteSpaceG, hc] using ih
    · exact .inr ⟨c, t, by simp [ignoreWhiteSpaceG, hc], eq_false_of_ne_true hc⟩

theorem ignoreWhiteSpaceG_nonws (c : Char) (t : List Char)
    (h : isDelim WHITESPACE c = false) :
    ignoreWhiteSpaceG (c :: t) = (0, c :: t, none) := by
  simp [ignoreWhiteSpaceG, h]

theorem readOpeningTagBody_tagOk (fuel : Nat) (ip : Bool) (s : List Char)
    (tag : Tag) (ip2 bc : Bool) (s2 : List Char)
    (h : readOpeningTagBody fuel ip s = (tag, ip2, bc, s2, none)) :
    (tag.schemaName == "" || tag.name != "") = true := by
  unfold readOpeningTagBody at h
  rcases hp : readColonPair (oneShl '>' ||| (WHITESPACE ||| oneShl '/')) s
    with ⟨pr, ce, s1, e1⟩
  rw [hp] at h
  cases e1 with
  | some e0 => simp at h
  | none =>
    dsimp only at h
    have htag : (((if ce = true then (⟨pr.first, pr.second, []⟩ : Tag)
        else ⟨"", pr.first, []⟩)).schemaName == "" ||
        ((if ce = true then (⟨pr.first, pr.second, []⟩ : Tag)
        else ⟨"", pr.first, []⟩)).name != "") = true := by
      cases ce with
      | false => simp
      | true =>
        have := readColonPair_second _ _ _ _ hp
        simp [this]
    have hmid : (if isDelim WHITESPACE (peekARuneG s1).1 then
        (ignoreWhiteSpaceG s1).2.1 else s1) = [] ∨
        ∃ c t, (if isDelim WHITESPACE (peekARuneG s1).1 then
          (ignoreWhiteSpaceG s1).2.1 else s1) = c :: t ∧
          isDelim WHITESPACE c = false := by
      by_cases hws : isDelim WHITESPACE (peekARuneG s1).1
      · rw [if_pos hws]
        exact ignoreWhiteSpaceG_strip s1
      · rw [if_neg hws]
        cases s1 with
        | nil => exact .inl rfl
        | cons c t =>
          exact .inr ⟨c, t, rfl, by simpa [peekARuneG] using hws⟩
    rcases hmid with hE | ⟨c, t, hE, hcw⟩
    · rw [hE] at h
      simp [peekARuneG, ignoreWhiteSpaceG, zeroRune] at h
    · rw [hE] at h
      simp only [peekARuneG] at h
      by_cases hgt : c = '>'
      · rw [if_pos hgt] at h
        simp only [Prod.mk.injEq] at h
        obtain ⟨htg, _⟩ := h
        rw [← htg]
        exact htag
      · rw [if_neg hgt] at h
        by_cases hsl : c = '/'
        · rw [if_pos hsl] at h
          rw [show readARuneG (c :: t) = (c, t, none) from rfl] at h
          dsimp only at h
          rcases hr : readARuneG t with ⟨nr, s4, e⟩
          rw [hr] at h
          cases e with
          | some e0 => simp at h
          | none =>
            dsimp only at h
            by_cases hnr : nr ≠ '>'
            · rw [if_pos hnr] at h
              simp at h
            · rw [if_neg hnr] at h
              simp only [Prod.mk.injEq] at h
              obtain ⟨htg, _⟩ := h
              rw [← htg]
              exact htag
        · rw [if_neg hsl] at h
          rw [ignoreWhiteSpaceG_nonws c t hcw] at h
          dsimp only [peekARuneG] at h
          rw [if_neg hgt] at h
          rcases hat : readAttrsF fuel (c :: t) with ⟨attrs, s4, e⟩
          rw [hat] at h
          cases e with
          | some e0 => simp at h
          | none =>
            dsimp only at h
            rcases hr : readARuneG s4 with ⟨nr2, s5, e2⟩
            rw [hr] at h
            dsimp only at h
            by_cases h2 : nr2 = '/'
            · rw [if_pos h2] at h
              rcases hr3 : readARuneG s5 with ⟨nr3, s6, e3⟩
              rw [hr3] at h
              cases e3 with
              | some e0 => simp at h
              | none =>
                dsimp only at h
                simp only [Prod.mk.injEq] at h
                obtain ⟨htg, _⟩ := h
                rw [← htg]
                simpa using htag
            · rw [if_neg h2] at h
              simp only [Prod.mk.injEq] at h
              obtain ⟨htg, _⟩ := h
              rw [← htg]
              simpa using htag


theorem readOpeningTag_tagOk (fuel : Nat) (s : List Char) (tag : Tag) (ip bc : Bool)
    (s' : List Char) (h : readOpeningTag fuel s = (tag, ip, bc, s', none)) :
    (tag.schemaName == "" || tag.name != "") = true := by
  unfold readOpeningTag at h
  rcases hw : ignoreWhiteSpaceG s with ⟨n0, s0, e0⟩
  rw [hw] at h
  cases e0 with
  | some e => simp at h
  | none =>
    dsimp only at h
    rcases ht : readTillG (oneShl '<') s0 with ⟨w1, s1, e1⟩
    rw [ht] at h
    cases e1 with
    | some e =>
      dsimp only at h
      by_cases hl : w1.length > 0
      · rw [if_pos hl] at h
        simp at h
      · rw [if_neg hl] at h
        simp at h
    | none =>
      dsimp only at h
      by_cases hl : w1.length ≠ 0
      · rw [if_pos hl] at h
        simp at h
      · rw [if_neg hl] at h
        generalize hX : (ignoreWhiteSpaceG ((readARuneG s1).2.1)).2.1 = sA at h
        rcases hpk : peekARuneG sA with ⟨nr, e2⟩
        rw [hpk] at h
        cases e2 with
        | some e => simp at h
        | none =>
          dsimp only at h
          by_cases hcl : nr = '/'
          · rw [if_pos hcl] at h
            simp at h
          · rw [if_neg hcl] at h
            by_cases hq : nr = '?'
            · rw [if_pos hq] at h
              rcases ht2 : readTillG (oneShl '?') ((readARuneG sA).2.1) with ⟨w2, s5, e5⟩
              rw [ht2] at h
              cases e5 with
              | some e => simp at h
              | none =>
                dsimp only at h
                rcases hig2 : ignoreWhiteSpaceG ((readARuneG s5).2.1) with ⟨n7, s7, e7⟩
                rw [hig2] at h
                cases e7 with
                | some e => simp at h
                | none =>
                  dsimp only at h
                  rcases hpk2 : peekARuneG s7 with ⟨c2, e8⟩
                  rw [hpk2] at h
                  cases e8 with
                  | some e => simp at h
                  | none =>
                    dsimp only at h
                    by_cases hc2 : c2 = '>'
                    · rw [if_pos hc2] at h
                      simp only [Prod.mk.injEq] at h
                      obtain ⟨htg, _⟩ := h
                      rw [← htg]
                      simp [default, Tag.schemaName]
                    · rw [if_neg hc2] at h
                      exact readOpeningTagBody_tagOk fuel true s7 tag ip bc s' h
            · rw [if_neg hq] at h
              exact readOpeningTagBody_tagOk fuel false sA tag ip bc s' h

theorem blockNamesOk_mk_iff (t : Tag) (v : String) (cs : List Block) :
    blockNamesOk (.mk t v cs) = true ↔
      ((t.schemaName == "" || t.name != "") = true ∧
        ∀ c ∈ cs, blockNamesOk c = true) := by
  rw [blockNamesOk]
  simp [List.all_eq_true, List.mem_attach, Subtype.forall]

theorem finishBlock_fst (t : Tag) (v : String) (cs : List Block) (s : List Char) :
    (finishBlock t v cs s).1 = Block.mk t v cs := by
  unfold finishBlock
  rcases hc : readClosingTag s with ⟨ct, s1, e⟩
  cases e with
  | some e0 => rfl
  | none =>
    dsimp only
    split <;> rfl

theorem readBlock_names (fuel : Nat) :
    (∀ s b rest, readBlockF fuel s = (b, rest, none) → blockNamesOk b = true) ∧
    (∀ s bs rest, readChildrenF fuel s = (bs, rest, none) →
      ∀ b ∈ bs, blockNamesOk b = true) := by
  induction fuel with
  | zero =>
    constructor
    · intro s b rest h
      simp [readBlockF] at h
    · intro s bs rest h
      simp [readChildrenF] at h
  | succ f ih =>
    obtain ⟨ihB, ihC⟩ := ih
    constructor
    · intro s b rest h
      simp only [readBlockF] at h
      rcases ho : readOpeningTag f s with ⟨tg, ip, bc, s1, e1⟩
      rw [ho] at h
      by_cases hip : ip = true
      · rw [if_pos hip] at h
        exact ihB s1 b rest h
      · rw [if_neg hip] at h
        have hip2 : ip = false := by
          cases ip
          · rfl
          · exact absurd rfl hip
        subst hip2
        cases e1 with
        | some e => simp at h
        | none =>
          dsimp only at h
          have htg := readOpeningTag_tagOk f s tg false bc s1 ho
          by_cases hbc : bc = true
          · rw [if_pos hbc] at h
            simp only [Prod.mk.injEq] at h
            obtain ⟨hb, _⟩ := h
            rw [← hb]
            rw [blockNamesOk_mk_iff]
            exact ⟨htg, by simp⟩
          · rw [if_neg hbc] at h
            rcases hpk : peekARuneG ((ignoreWhiteSpaceG s1).2.1) with ⟨c0, e2⟩
            rw [hpk] at h
            cases e2 with
            | some e => simp at h
            | none =>
              dsimp only at h
              by_cases hlt : c0 ≠ '<'
              · rw [if_pos hlt] at h
                rcases ht : readTillG (oneShl '<') ((ignoreWhiteSpaceG s1).2.1)
                  with ⟨w2, s3, e3⟩
                rw [ht] at h
                cases e3 with
                | some e => simp at h
                | none =>
                  dsimp only at h
                  have hfst := congrArg (fun p => p.1) h
                  dsimp only at hfst
                  rw [finishBlock_fst] at hfst
                  rw [← hfst, blockNamesOk_mk_iff]
                  exact ⟨htg, by simp⟩
              · rw [if_neg hlt] at h
                rcases hp2 : peekNBytesG 2 ((ignoreWhiteSpaceG s1).2.1) with ⟨two, e4⟩
                rw [hp2] at h
                cases e4 with
                | some e => simp at h
                | none =>
                  dsimp only at h
                  rcases hch : readChildrenF f ((ignoreWhiteSpaceG s1).2.1)
                    with ⟨cs, s3, e5⟩
                  rw [hch] at h
                  cases e5 with
                  | some e => simp at h
                  | none =>
                    dsimp only at h
                    have hfst := congrArg (fun p => p.1) h
                    dsimp only at hfst
                    rw [finishBlock_fst] at hfst
                    rw [← hfst, blockNamesOk_mk_iff]
                    exact ⟨htg, ihC _ _ _ hch⟩
    · intro s bs rest h
      simp only [readChildrenF] at h
      rcases hp2 : peekNBytesG 2 s with ⟨two, e0⟩
      rw [hp2] at h
      cases e0 with
      | some e => simp at h
      | none =>
        dsimp only at h
        by_cases h2 : two = ['<', '/']
        · rw [if_pos h2] at h
          simp only [Prod.mk.injEq] at h
          obtain ⟨hb, _⟩ := h
          rw [← hb]
          simp
        · rw [if_neg h2] at h
          rcases hb1 : readBlockF f s with ⟨b1, s1, e1⟩
          rw [hb1] at h
          cases e1 with
          | some e => simp at h
          | none =>
            dsimp only at h
            rcases hch : readChildrenF f ((ignoreWhiteSpaceG s1).2.1) with ⟨bs2, s2, e2⟩
            rw [hch] at h
            simp only [Prod.mk.injEq] at h
            obtain ⟨hbs, _, he⟩ := h
            subst he
            rw [← hbs]
            intro b hbmem
            rcases List.mem_cons.mp hbmem with hb | hb
            · rw [hb]
              exact ihB s b1 s1 hb1
            · exact ihC _ _ _ hch b hb

/-- **C8 amended**: after every successful parse, every tag that carries a
namespace prefix (non-empty `SchemaName`) has a non-empty `Name` — the
qualified-name split refuses an empty part after the colon — but an
unprefixed `Tag.Name` may be empty, as the counterexample `<></>` shows;
each matched closing tag equals its opening tag on both fields, so the
property covers closing tags as well. -/
theorem c8_prefixed_names_nonempty (fuel : Nat) (s : List Char) (b : Block)
    (rest : List Char) (h : readBlockF fuel s = (b, rest, none)) :
    blockNamesOk b = true :=
  (readBlock_names fuel).1 s b rest h

/-- Witness for the amended C8 on the document `<a:b></a:b>`. -/
theorem c8_prefixed_names_nonempty_witness :
    blockNamesOk (Block.mk ⟨"a", "b", []⟩ "" []) = true :=
  c8_prefixed_names_nonempty 15 ("<a:b></a:b>".data) (Block.mk ⟨"a", "b", []⟩ "" [])
    [] (by rfl)

end Gordf
